import Mathlib

/-!
Verification of the run-length wavelet tree `wt_rlmn` and the hybrid integer
vector `hac_vector` of this repository against its specification.

The byte sequence `T` is modelled as `List Nat` (bytes are values `< 256`);
bit vectors are `List Bool`; 64-bit machine arithmetic never overflows on the
quantities involved (all are bounded by the input length), so `Nat` is used,
with explicit wrap-around modelled where a narrowing conversion occurs
(`hac_vector.operator[]` stores a map value into a 32-bit `int`).

The inner structures `sd_vector` (rank/select support) and `wt_huff` (the
run-head wavelet tree) are not part of the sources; they are modelled from
the spec contracts in sections 4.2 and 4.3.
-/

namespace sdsl

/-- Spec-side reference function: the number of positions `j < i` with
`T[j] = c` (the mathematical rank used by properties P2/P3 of the spec). -/
def occBefore (T : List Nat) (i c : Nat) : Nat :=
  (List.range i).countP (fun j => T.getD j 0 == c)

/-- Spec-side reference function: the number of maximal equal-byte runs of a
sequence (each run starts where the value differs from its predecessor). -/
def numRuns : List Nat → Nat
  | [] => 0
  | [_] => 1
  | a :: b :: t => (if a = b then 0 else 1) + numRuns (b :: t)

/-- Modelled from the spec, section 4.2: `rank1(B, i)` is the number of ones
in `B[0..i)`.  The `sd_vector` rank support backing `m_bl_rank` / `m_bf_rank`
is not part of the sources. -/
def rank1 (B : List Bool) (i : Nat) : Nat :=
  (B.take i).countP (fun b => b)

/-- Positions of the ones of a bit vector, in increasing order. -/
def onesPos (B : List Bool) : List Nat :=
  (List.range B.length).filter (fun p => B.getD p false)

/-- Modelled from the spec, section 4.2: `select1(B, j)` is the position of
the `j`-th one of `B` (`j` is 1-indexed).  The `sd_vector` select support
backing `m_bl_select` / `m_bf_select` is not part of the sources. -/
def select1 (B : List Bool) (j : Nat) : Nat :=
  (onesPos B).getD (j - 1) 0

/-- Modelled from the spec, section 4.3: `access` of the run-head wavelet
tree (`wt_huff` is not part of the sources): `access(k) = H[k]`. -/
def wt_access (H : List Nat) (k : Nat) : Nat :=
  H.getD k 0

/-- Modelled from the spec, section 4.3: `rank(k, c)` of the run-head wavelet
tree: the number of `j < k` with `H[j] = c`. -/
def wt_rank (H : List Nat) (k c : Nat) : Nat :=
  (H.take k).count c

/-- Modelled from the spec, section 4.3: `select(j, c)` of the run-head
wavelet tree: the position in `H` of the `j`-th occurrence of `c`
(`j` is 1-indexed). -/
def wt_select (H : List Nat) (j c : Nat) : Nat :=
  ((List.range H.length).filter (fun p => H.getD p 0 == c)).getD (j - 1) 0

/-- Modelled from the spec, section 4.3: `inverse_select(k)` of the run-head
wavelet tree returns `(rank(k, H[k]), H[k])`. -/
def wt_inverse_select (H : List Nat) (k : Nat) : Nat × Nat :=
  ((H.take k).count (H.getD k 0), H.getD k 0)

namespace wt_rlmn

/-- Whether position `i` starts a run of `T`: the constructor sets
`bl[i] = 1` iff `last_c != c or i == 0`, and `last_c` holds `T[i-1]`
when `i >= 1`. -/
def blAt (T : List Nat) (i : Nat) : Bool :=
  decide (i = 0 ∨ T.getD i 0 ≠ T.getD (i - 1) 0)

/-- The bit vector `m_bl` of length `n` marking the run starts of `T`. -/
def bl (T : List Nat) : List Bool :=
  (List.range T.length).map (blAt T)

/-- The run-head string written to the temporary stream during pass 1 of the
constructor and wrapped in `m_wt`: the byte `T[i]` for every `i` with
`bl[i] = 1`, in order. -/
def wtH (T : List Nat) : List Nat :=
  (List.range T.length).filterMap (fun i => if blAt T i then some (T.getD i 0) else none)

/-- The table `m_C`: the exclusive prefix sum of the byte frequencies,
`C[c] = sum of the counts of all bytes b < c`. -/
def C (T : List Nat) (c : Nat) : Nat :=
  ((List.range c).map (fun b => T.count b)).sum

/-- One iteration of pass 2 of the constructor: with `c = T[i]`, set
`bf[lf_map[c]] = 1` if `bl[i] = 1`, then increment `lf_map[c]`.  The state
is the pair `(lf_map, bf)`. -/
def bfStep (T : List Nat) (st : (Nat → Nat) × List Bool) (i : Nat) : (Nat → Nat) × List Bool :=
  let c := T.getD i 0
  let nbf := if blAt T i then st.2.set (st.1 c) true else st.2
  (fun x => if x = c then st.1 c + 1 else st.1 x, nbf)

/-- The initial state of pass 2: `lf_map` is a copy of `m_C`, and `bf` is the
all-zero bit vector of length `n + 1` with `bf[n] = 1`. -/
def bfInit (T : List Nat) : (Nat → Nat) × List Bool :=
  (fun c => C T c, (List.replicate (T.length + 1) false).set T.length true)

/-- The bit vector `m_bf` of length `n + 1` produced by pass 2 of the
constructor. -/
def bf (T : List Nat) : List Bool :=
  ((List.range T.length).foldl (bfStep T) (bfInit T)).2

/-- The table `m_C_bf_rank`: `m_C_bf_rank[c] = m_bf_rank(m_C[c])`. -/
def C_bf_rank (T : List Nat) (c : Nat) : Nat :=
  rank1 (bf T) (C T c)

/-- Proof-side view of `m_bl`: the sorted list of run-start positions. -/
def headPos (T : List Nat) : List Nat :=
  (List.range T.length).filter (blAt T)

/-- Proof-side view of `m_bf`: the position in the sorted first column where
the run starting at `i` places its one, `C[T[i]] + rank(i, T[i])`. -/
def posval (T : List Nat) (i : Nat) : Nat :=
  C T (T.getD i 0) + occBefore T i (T.getD i 0)

/-- `wt_rlmn::size()`: the stored length `m_size` of the input sequence.  A
default-constructed tree has `m_size = 0` and behaves on every query like a
tree built from the empty sequence, so the Empty state is modelled by
`T = []`. -/
def size (T : List Nat) : Nat := T.length

/-- `wt_rlmn::empty()`: `0 == m_size`. -/
def empty (T : List Nat) : Bool := 0 == size T

/-- `operator[]`: `m_wt[m_bl_rank(i+1) - 1]`. -/
def access (T : List Nat) (i : Nat) : Nat :=
  wt_access (wtH T) (rank1 (bl T) (i + 1) - 1)

/-- `wt_rlmn::rank(i, c)`, translated expression for expression from the
source (the trailing subtractions never underflow on legal inputs, which the
correctness lemmas establish). -/
def rank (T : List Nat) (i c : Nat) : Nat :=
  if i = 0 then 0
  else
    let wt_ex_pos := rank1 (bl T) i
    let c_runs := wt_rank (wtH T) wt_ex_pos c
    if c_runs = 0 then 0
    else if wt_access (wtH T) (wt_ex_pos - 1) = c then
      let c_run_begin := select1 (bl T) wt_ex_pos
      select1 (bf T) (C_bf_rank T c + c_runs) - C T c + i - c_run_begin
    else
      select1 (bf T) (C_bf_rank T c + c_runs + 1) - C T c

/-- `wt_rlmn::inverse_select(i)`, returning the pair `(result, c)` where the
source returns `result` and writes the symbol through the reference `c`. -/
def inverse_select (T : List Nat) (i : Nat) : Nat × Nat :=
  if i = 0 then (0, wt_access (wtH T) 0)
  else
    let wt_ex_pos := rank1 (bl T) (i + 1)
    let p := wt_inverse_select (wtH T) (wt_ex_pos - 1)
    let c := p.2
    let c_runs := p.1 + 1
    if c_runs = 0 then (0, c)
    else if wt_access (wtH T) (wt_ex_pos - 1) = c then
      let c_run_begin := select1 (bl T) wt_ex_pos
      (select1 (bf T) (C_bf_rank T c + c_runs) - C T c + i - c_run_begin, c)
    else
      (select1 (bf T) (C_bf_rank T c + c_runs + 1) - C T c, c)

/-- `wt_rlmn::select(i, c)`, translated expression for expression from the
source. -/
def select (T : List Nat) (j c : Nat) : Nat :=
  let c_runs := rank1 (bf T) (C T c + j) - C_bf_rank T c
  let offset := C T c + j - 1 - select1 (bf T) (c_runs + C_bf_rank T c)
  select1 (bl T) (wt_select (wtH T) c_runs c + 1) + offset

end wt_rlmn

/-- Failure kind of a query whose argument violates the declared domain
(the `assert` preconditions of the source; spec section 7 calls this
`OutOfRange`). -/
inductive QueryError
  | outOfRange
  deriving DecidableEq

/-- `wt_rlmn::rank` with its precondition `assert(i <= size())` made
explicit as a failure. -/
def wt_rlmn.rankE (T : List Nat) (i c : Nat) : Except QueryError Nat :=
  if i ≤ T.length then Except.ok (wt_rlmn.rank T i c) else Except.error QueryError.outOfRange

/-- `wt_rlmn::operator[]` with its precondition `assert(i < size())` made
explicit as a failure. -/
def wt_rlmn.accessE (T : List Nat) (i : Nat) : Except QueryError Nat :=
  if i < T.length then Except.ok (wt_rlmn.access T i) else Except.error QueryError.outOfRange

/-- `wt_rlmn::inverse_select` with its precondition `assert(i < size())`
made explicit as a failure. -/
def wt_rlmn.inverse_selectE (T : List Nat) (i : Nat) : Except QueryError (Nat × Nat) :=
  if i < T.length then Except.ok (wt_rlmn.inverse_select T i) else Except.error QueryError.outOfRange

/-- `wt_rlmn::select` with its preconditions `assert(i > 0)` and
`assert(i <= rank(size(), c))` made explicit as failures. -/
def wt_rlmn.selectE (T : List Nat) (j c : Nat) : Except QueryError Nat :=
  if 0 < j ∧ j ≤ wt_rlmn.rank T T.length c then Except.ok (wt_rlmn.select T j c)
  else Except.error QueryError.outOfRange

namespace hac_vector

/-- The threshold `treshold = (1 << i_w) - 2` of `hac_vector` (for the
supported widths 8, 16 and 32 the intended value is `2^w - 2`). -/
def treshold (w : Nat) : Nat := 2 ^ w - 2

/-- The over-the-threshold token `ott = treshold + 1`. -/
def ott (w : Nat) : Nat := treshold w + 1

/-- The primary array `m_data` after the container constructor: every slot
starts as `ott` and is overwritten with `val` when `val <= treshold`
(`int_vector<i_w>` keeps the low `w` bits of a stored value). -/
def m_data (w : Nat) (l : List Nat) : List Nat :=
  l.map (fun v => if v ≤ treshold w then v % 2 ^ w else ott w)

/-- The exception map `m_map` after the container constructor: one entry
`(i, val)` for every index with `val > treshold`, modelled as an
association list. -/
def m_map (w : Nat) (l : List Nat) : List (Nat × Nat) :=
  (List.range l.length).filterMap
    (fun i => if l.getD i 0 ≤ treshold w then none else some (i, l.getD i 0))

/-- The narrowing `int val = it->second` of `operator[]`: a 64-bit unsigned
value converted to a 32-bit two's-complement `int`. -/
def intOfUInt64 (x : Nat) : Int :=
  if x % 2 ^ 32 < 2 ^ 31 then (x % 2 ^ 32 : Nat) else (x % 2 ^ 32 : Nat) - 2 ^ 32

/-- The widening `return val` of `operator[]`: the 32-bit `int` converted
back to the 64-bit unsigned return type. -/
def uint64OfInt (v : Int) : Nat :=
  (v % (2 ^ 64 : Int)).toNat

/-- `hac_vector::operator[]` on a constructor-built vector: return the
primary slot when it does not exceed the threshold, otherwise look the index
up in the exception map through the local 32-bit `int val` (returning 0 when
the key is absent). -/
def get (w : Nat) (l : List Nat) (i : Nat) : Nat :=
  if (m_data w l).getD i 0 ≤ treshold w then (m_data w l).getD i 0
  else
    match (m_map w l).lookup i with
    | some v => uint64OfInt (intOfUInt64 v)
    | none => 0

end hac_vector

/-- The sequence "abracadabra" of scenario S3 of the spec, as bytes. -/
def abracadabraBytes : List Nat :=
  [97, 98, 114, 97, 99, 97, 100, 97, 98, 114, 97]

/-! ## Generic list and bit-vector lemmas -/

/-- Reading a list after `set` at the written index. -/
lemma getD_set_self (l : List Bool) (i : Nat) (a d : Bool) :
    (l.set i a).getD i d = if i < l.length then a else d := by
  rcases Nat.lt_or_ge i l.length with h | h
  · simp [h, List.getD_eq_getElem _ _ (by simpa), List.getElem_set]
  · rw [if_neg (Nat.not_lt.mpr h), List.set_eq_of_length_le h,
      List.getD_eq_default _ _ h]

/-- Reading a list after `set` at a different index. -/
lemma getD_set_ne (l : List Bool) (i j : Nat) (a d : Bool) (hne : j ≠ i) :
    (l.set i a).getD j d = l.getD j d := by
  rcases Nat.lt_or_ge j l.length with h | h
  · rw [List.getD_eq_getElem _ _ (by simpa), List.getD_eq_getElem _ _ h]
    simp [List.getElem_set, Ne.symm hne]
  · rw [List.getD_eq_default _ _ (by simpa), List.getD_eq_default _ _ h]

/-- Counting a disjunction of two predicates that never hold together. -/
lemma countP_or_disjoint (l : List Nat) (p q : Nat → Bool)
    (hd : ∀ a ∈ l, ¬(p a = true ∧ q a = true)) :
    l.countP (fun a => p a || q a) = l.countP p + l.countP q := by
  induction l with
  | nil => rfl
  | cons a t ih =>
    have ht : ∀ b ∈ t, ¬(p b = true ∧ q b = true) := fun b hb => hd b (List.mem_cons_of_mem a hb)
    rcases hp : p a <;> rcases hq : q a <;>
      simp [List.countP_cons, hp, hq, ih ht] <;> try omega
    exact absurd ⟨hp, hq⟩ (hd a (List.mem_cons_self a t))

/-- In a strictly sorted list, the element with exactly `k` smaller list
elements sits at index `k`. -/
lemma sorted_getD_eq : ∀ (L : List Nat), L.Pairwise (· < ·) → ∀ x k, x ∈ L →
    (L.filter (fun y => decide (y < x))).length = k → L.getD k 0 = x
  | [], _, x, _, hx, _ => absurd hx (List.not_mem_nil x)
  | a :: t, hL, x, k, hx, hk => by
    have hat := List.pairwise_cons.mp hL
    rcases List.mem_cons.mp hx with rfl | hxt
    · have hft : t.filter (fun y => decide (y < x)) = [] := by
        rw [List.filter_eq_nil_iff]
        intro y hy
        have := hat.1 y hy
        simp; omega
      rw [List.filter_cons_of_neg (by simp), hft] at hk
      simp at hk
      subst hk
      rfl
    · have hax : a < x := hat.1 x hxt
      rw [List.filter_cons_of_pos (by simpa)] at hk
      rcases k with _ | k'
      · simp at hk
      · have : (t.filter (fun y => decide (y < x))).length = k' := by
          simpa using hk
        simpa using sorted_getD_eq t hat.2 x k' hxt this

/-- Converse direction: in a strictly sorted list, the element at index `k`
has exactly `k` smaller list elements. -/
lemma sorted_count_below_getD : ∀ (L : List Nat), L.Pairwise (· < ·) → ∀ k, k < L.length →
    (L.filter (fun y => decide (y < L.getD k 0))).length = k
  | [], _, k, hk => by simp at hk
  | a :: t, hL, k, hk => by
    have hat := List.pairwise_cons.mp hL
    rcases k with _ | k'
    · have hno : ∀ y ∈ a :: t, ¬(y < a) := by
        intro y hy
        rcases List.mem_cons.mp hy with rfl | hyt
        · omega
        · have := hat.1 y hyt; omega
      rw [List.filter_eq_nil_iff.mpr (by intro y hy; simpa using hno y hy)]
      rfl
    · have hk' : k' < t.length := by simpa using hk
      have hgt : t.getD k' 0 ∈ t := by
        rw [List.getD_eq_getElem _ _ hk']; exact List.getElem_mem _
      have hax : a < t.getD k' 0 := hat.1 _ hgt
      have hgd : (a :: t).getD (k' + 1) 0 = t.getD k' 0 := rfl
      rw [hgd, @List.filter_cons_of_pos _ (fun y => decide (y < t.getD k' 0)) a t
          (by simp only [decide_eq_true_eq]; exact hax), List.length_cons,
        sorted_count_below_getD t hat.2 k' hk']

/-- In a strictly sorted list, the elements below a bound form a prefix. -/
lemma sorted_take_filter : ∀ (L : List Nat), L.Pairwise (· < ·) → ∀ i,
    L.take ((L.filter (fun y => decide (y < i))).length) = L.filter (fun y => decide (y < i))
  | [], _, _ => rfl
  | a :: t, hL, i => by
    have hat := List.pairwise_cons.mp hL
    rcases ha : decide (a < i) with _ | _
    · have hai : ¬ a < i := by simpa using ha
      have hft : t.filter (fun y => decide (y < i)) = [] := by
        rw [List.filter_eq_nil_iff]
        intro y hy
        have := hat.1 y hy
        simp; omega
      rw [List.filter_cons_of_neg (by simp [ha]), hft]
      rfl
    · rw [List.filter_cons_of_pos (by simp [ha]), List.length_cons, List.take_succ_cons,
        sorted_take_filter t hat.2 i]
/-- Reading below the cut of a `take` is reading the original list. -/
lemma getD_take_lt : ∀ (l : List Nat) (m k d : Nat), k < m →
    (l.take m).getD k d = l.getD k d
  | [], _, _, _, _ => by simp
  | _ :: _, 0, _, _, hk => by omega
  | _ :: t, m + 1, 0, _, _ => rfl
  | _ :: t, m + 1, k + 1, d, hk =>
    getD_take_lt t m k d (by omega)

/-- In a strictly sorted list with at least one element below the bound `i`,
the entry just before the count of elements below `i` is the largest element
below `i`. -/
lemma sorted_last_below (L : List Nat) (hL : L.Pairwise (· < ·)) (i : Nat)
    (hpos : 1 ≤ (L.filter (fun y => decide (y < i))).length) :
    L.getD ((L.filter (fun y => decide (y < i))).length - 1) 0 ∈ L ∧
      L.getD ((L.filter (fun y => decide (y < i))).length - 1) 0 < i ∧
      ∀ q ∈ L, q < i →
        q ≤ L.getD ((L.filter (fun y => decide (y < i))).length - 1) 0 := by
  set F := L.filter (fun y => decide (y < i)) with hF
  have hFsorted : F.Pairwise (· < ·) := hL.filter _
  have hk : F.length - 1 < F.length := by omega
  have hmemF : F.getD (F.length - 1) 0 ∈ F := by
    rw [List.getD_eq_getElem _ _ hk]; exact List.getElem_mem _
  have htake := sorted_take_filter L hL i
  rw [← hF] at htake
  have hgd : L.getD (F.length - 1) 0 = F.getD (F.length - 1) 0 :=
    calc L.getD (F.length - 1) 0
        = (L.take F.length).getD (F.length - 1) 0 :=
          (getD_take_lt L F.length (F.length - 1) 0 (by omega)).symm
      _ = F.getD (F.length - 1) 0 := by rw [htake]
  rw [hgd]
  refine ⟨(List.mem_filter.mp hmemF).1, by simpa using (List.mem_filter.mp hmemF).2, ?_⟩
  intro q hq hqi
  have hqF : q ∈ F := List.mem_filter.mpr ⟨hq, by simpa⟩
  -- q is among the elements of F, whose largest element is the last one
  have : ∀ m, ∀ (M : List Nat), M.Pairwise (· < ·) → ∀ x ∈ M, m + 1 = M.length →
      x ≤ M.getD m 0 := by
    intro m
    induction m with
    | zero =>
      intro M hM x hx hlen
      rcases M with _ | ⟨b, t⟩
      · simp at hlen
      · have : t = [] := by simpa using hlen.symm
        subst this
        have : x = b := by simpa using hx
        simp [this]
    | succ m ih =>
      intro M hM x hx hlen
      rcases M with _ | ⟨b, t⟩
      · simp at hlen
      · rcases List.mem_cons.mp hx with rfl | hxt
        · have hlast : t.getD m 0 ∈ t := by
            rw [List.getD_eq_getElem _ _ (by simp at hlen; omega)]
            exact List.getElem_mem _
          have := (List.pairwise_cons.mp hM).1 _ hlast
          have hgd2 : (x :: t).getD (m + 1) 0 = t.getD m 0 := rfl
          omega
        · have := ih t (List.pairwise_cons.mp hM).2 x hxt (by simp at hlen; omega)
          have hgd2 : (b :: t).getD (m + 1) 0 = t.getD m 0 := rfl
          omega
  exact this (F.length - 1) F hFsorted q hqF (by omega)

/-- A filter by a predicate that is downward closed along a strictly sorted
list keeps an initial segment of the list. -/
lemma sorted_filter_initial : ∀ (L : List Nat), L.Pairwise (· < ·) →
    ∀ (P : Nat → Bool), (∀ a ∈ L, ∀ b ∈ L, a < b → P b = true → P a = true) →
    L.filter P = L.take ((L.filter P).length)
  | [], _, _, _ => rfl
  | a :: t, hL, P, hdc => by
    have hat := List.pairwise_cons.mp hL
    rcases ha : P a with _ | _
    · have hft : t.filter P = [] := by
        rw [List.filter_eq_nil_iff]
        intro b hb hPb
        exact absurd (hdc a (List.mem_cons_self a t) b (List.mem_cons_of_mem a hb)
          (hat.1 b hb) hPb) (by simp [ha])
      rw [List.filter_cons_of_neg (by simp [ha]), hft]
      rfl
    · rw [List.filter_cons_of_pos ha, List.length_cons, List.take_succ_cons]
      have hdct : ∀ x ∈ t, ∀ b ∈ t, x < b → P b = true → P x = true := fun x hx b hb =>
        hdc x (List.mem_cons_of_mem a hx) b (List.mem_cons_of_mem a hb)
      rw [← sorted_filter_initial t hat.2 P hdct]

/-- Selecting positions of a list through an index filter equals filtering
the list itself. -/
lemma filter_index_map : ∀ (L : List Nat) (p : Nat → Bool),
    ((List.range L.length).filter (fun k => p (L.getD k 0))).map (fun k => L.getD k 0)
      = L.filter p
  | [], _ => rfl
  | a :: t, p => by
    have hrange : List.range (t.length + 1) = 0 :: (List.range t.length).map Nat.succ :=
      List.range_succ_eq_map t.length
    have hshift : ((List.range t.length).map Nat.succ).filter
          (fun k => p ((a :: t).getD k 0))
        = ((List.range t.length).filter (fun k => p (t.getD k 0))).map Nat.succ := by
      rw [List.filter_map]
      congr 1
    have hmapeq : ∀ M : List Nat, (M.map Nat.succ).map (fun k => (a :: t).getD k 0)
        = M.map (fun k => t.getD k 0) := by
      intro M
      rw [List.map_map]
      rfl
    rcases ha : p a with _ | _
    · rw [List.length_cons, hrange, List.filter_cons_of_neg (by simpa using ha), hshift,
        hmapeq, List.filter_cons_of_neg (by simp [ha]), filter_index_map t p]
    · rw [List.length_cons, hrange, List.filter_cons_of_pos (by simpa using ha), hshift,
        List.map_cons, hmapeq, List.filter_cons_of_pos ha, filter_index_map t p]
      rfl

/-- Two duplicate-free lists with the same members have the same length. -/
lemma length_eq_of_nodup_mem_iff (l1 l2 : List Nat) (h1 : l1.Nodup) (h2 : l2.Nodup)
    (h : ∀ a, a ∈ l1 ↔ a ∈ l2) : l1.length = l2.length :=
  ((List.perm_ext_iff_of_nodup h1 h2).mpr h).length_eq

/-- Filtering the positions below a bound out of `range n`. -/
lemma range_filter_lt : ∀ n x, x ≤ n →
    (List.range n).filter (fun y => decide (y < x)) = List.range x := by
  intro n
  induction n with
  | zero => intro x hx; interval_cases x; rfl
  | succ n ih =>
    intro x hx
    rcases Nat.lt_or_ge x (n + 1) with h | h
    · rw [List.range_succ, List.filter_append, ih x (by omega),
        List.filter_cons_of_neg (by simp; omega), List.filter_nil, List.append_nil]
    · have hx1 : x = n + 1 := by omega
      subst hx1
      apply List.filter_eq_self.mpr
      intro y hy
      simpa using List.mem_range.mp hy

/-- `rank1` as a count over positions. -/
lemma rank1_eq_countP_range (B : List Bool) : ∀ x, x ≤ B.length →
    rank1 B x = (List.range x).countP (fun p => B.getD p false) := by
  intro x
  induction x with
  | zero => intro _; rfl
  | succ x ih =>
    intro hx
    have hxl : x < B.length := by omega
    have htk : B.take (x + 1) = B.take x ++ B[x]?.toList := List.take_succ
    rw [rank1, htk, List.countP_append, List.range_succ, List.countP_append,
      ← rank1, ih (by omega), List.getElem?_eq_getElem hxl]
    congr 1
    have : B.getD x false = B[x] := List.getD_eq_getElem B false hxl
    rcases hb : B[x] <;>
      simp [List.countP_cons, hb, this, List.getElem?_eq_getElem hxl]

/-- Membership in the list of one-positions. -/
lemma mem_onesPos (B : List Bool) (p : Nat) :
    p ∈ onesPos B ↔ p < B.length ∧ B.getD p false = true := by
  unfold onesPos
  rw [List.mem_filter, List.mem_range]

/-- The one-positions are strictly sorted. -/
lemma onesPos_pairwise (B : List Bool) : (onesPos B).Pairwise (· < ·) :=
  (List.pairwise_lt_range B.length).filter _

/-- The one-positions carry no duplicates. -/
lemma onesPos_nodup (B : List Bool) : (onesPos B).Nodup :=
  (List.nodup_range B.length).filter _

/-- `rank1` counts the one-positions below the bound. -/
lemma rank1_eq_onesPos_count (B : List Bool) (x : Nat) (hx : x ≤ B.length) :
    rank1 B x = ((onesPos B).filter (fun y => decide (y < x))).length := by
  rw [rank1_eq_countP_range B x hx]
  unfold onesPos
  rw [List.filter_filter]
  have hcomm : (List.range B.length).filter
        (fun y => decide (y < x) && B.getD y false)
      = ((List.range B.length).filter (fun y => decide (y < x))).filter
        (fun y => B.getD y false) := by
    rw [List.filter_filter]
    apply List.filter_congr
    intro y _
    rcases h1 : decide (y < x) <;> rcases h2 : B.getD y false <;> simp [h1, h2]
  rw [hcomm, range_filter_lt B.length x hx, List.countP_eq_length_filter]

/-- Characterization of `select1`: the position with `j - 1` earlier ones. -/
lemma select1_eq (B : List Bool) (j x : Nat) (_hj : 1 ≤ j) (hx : x < B.length)
    (hone : B.getD x false = true) (hr : rank1 B x = j - 1) :
    select1 B j = x := by
  unfold select1
  apply sorted_getD_eq (onesPos B) (onesPos_pairwise B) x (j - 1)
    ((mem_onesPos B x).mpr ⟨hx, hone⟩)
  rw [← rank1_eq_onesPos_count B x (by omega), hr]

/-- The selected position of the rank at `i` is the last one-position
before `i`. -/
lemma select1_last (B : List Bool) (i : Nat) (hi : i ≤ B.length)
    (hpos : 1 ≤ rank1 B i) :
    B.getD (select1 B (rank1 B i)) false = true ∧ select1 B (rank1 B i) < i ∧
      ∀ q, select1 B (rank1 B i) < q → q < i → B.getD q false = false := by
  have hcnt := rank1_eq_onesPos_count B i hi
  have h := sorted_last_below (onesPos B) (onesPos_pairwise B) i (by omega)
  have hsel : select1 B (rank1 B i)
      = (onesPos B).getD (((onesPos B).filter (fun y => decide (y < i))).length - 1) 0 := by
    unfold select1
    rw [hcnt]
  rw [← hsel] at h
  have hmem := (mem_onesPos B _).mp h.1
  refine ⟨hmem.2, h.2.1, ?_⟩
  intro q hq hqi
  rcases hb : B.getD q false with _ | _
  · rfl
  · have hqmem : q ∈ onesPos B := (mem_onesPos B q).mpr ⟨by omega, hb⟩
    have := h.2.2 q hqmem hqi
    omega

/-- A bit vector whose first bit is set has positive rank on any positive
prefix. -/
lemma rank1_pos (B : List Bool) (i : Nat) (h0 : B.getD 0 false = true)
    (hi : 1 ≤ i) (hil : i ≤ B.length) : 1 ≤ rank1 B i := by
  rw [rank1_eq_countP_range B i hil]
  apply List.countP_pos_iff.mpr
  exact ⟨0, List.mem_range.mpr (by omega), h0⟩

/-- `rank1` is monotone within the vector. -/
lemma rank1_mono (B : List Bool) (i j : Nat) (hij : i ≤ j) (hj : j ≤ B.length) :
    rank1 B i ≤ rank1 B j := by
  rw [rank1_eq_countP_range B i (by omega), rank1_eq_countP_range B j hj]
  exact (List.range_sublist.mpr hij).countP_le _

/-! ## Structure of `m_bl`, the run starts and the run-head string -/

namespace wt_rlmn

lemma bl_length (T : List Nat) : (bl T).length = T.length := by
  unfold bl
  rw [List.length_map, List.length_range]

lemma bl_getD (T : List Nat) (p : Nat) (hp : p < T.length) :
    (bl T).getD p false = blAt T p := by
  unfold bl
  rw [List.getD_eq_getElem _ _ (by simpa using hp), List.getElem_map,
    List.getElem_range]

lemma blAt_zero (T : List Nat) : blAt T 0 = true := by
  simp [blAt]

lemma mem_headPos (T : List Nat) (g : Nat) :
    g ∈ headPos T ↔ g < T.length ∧ blAt T g = true := by
  unfold headPos
  rw [List.mem_filter, List.mem_range]

lemma headPos_pairwise (T : List Nat) : (headPos T).Pairwise (· < ·) :=
  (List.pairwise_lt_range T.length).filter _

lemma headPos_nodup (T : List Nat) : (headPos T).Nodup :=
  (List.nodup_range T.length).filter _

lemma onesPos_bl (T : List Nat) : onesPos (bl T) = headPos T := by
  unfold onesPos headPos
  rw [bl_length]
  apply List.filter_congr
  intro p hp
  rw [bl_getD T p (List.mem_range.mp hp)]

lemma wtH_eq_map (T : List Nat) :
    wtH T = (headPos T).map (fun g => T.getD g 0) := by
  unfold wtH headPos
  induction (List.range T.length) with
  | nil => rfl
  | cons a t ih =>
    rcases ha : blAt T a with _ | _
    · rw [List.filterMap_cons, List.filter_cons_of_neg (by simp [ha])]
      simpa [ha] using ih
    · rw [List.filterMap_cons, List.filter_cons_of_pos ha]
      simpa [ha] using ih

lemma rank1_bl (T : List Nat) (i : Nat) (hi : i ≤ T.length) :
    rank1 (bl T) i = ((headPos T).filter (fun y => decide (y < i))).length := by
  rw [rank1_eq_onesPos_count (bl T) i (by rw [bl_length]; exact hi), onesPos_bl]

lemma select1_bl (T : List Nat) (j : Nat) :
    select1 (bl T) j = (headPos T).getD (j - 1) 0 := by
  unfold select1
  rw [onesPos_bl]

lemma headPos_length_eq (T : List Nat) :
    (headPos T).length = rank1 (bl T) T.length := by
  rw [rank1_bl T T.length (Nat.le_refl _)]
  congr 1
  apply (List.filter_eq_self.mpr _).symm
  intro g hg
  simpa using ((mem_headPos T g).mp hg).1

/-! ## Counting occurrences -/

lemma occBefore_succ (T : List Nat) (i c : Nat) :
    occBefore T (i + 1) c
      = occBefore T i c + (if T.getD i 0 = c then 1 else 0) := by
  unfold occBefore
  rw [List.range_succ, List.countP_append]
  congr 1
  rcases h : T.getD i 0 == c with _ | _
  · have h' : ¬ T.getD i 0 = c := by simpa using h
    simp [List.countP_cons, h, h']
  · have h' : T.getD i 0 = c := by simpa using h
    simp [List.countP_cons, h, h']

lemma occBefore_mono (T : List Nat) (i j c : Nat) (hij : i ≤ j) :
    occBefore T i c ≤ occBefore T j c := by
  unfold occBefore
  exact (List.range_sublist.mpr hij).countP_le _

lemma occBefore_strict (T : List Nat) (i j c : Nat) (hc : T.getD i 0 = c)
    (hij : i < j) : occBefore T i c < occBefore T j c := by
  have h1 : occBefore T (i + 1) c = occBefore T i c + 1 := by
    rw [occBefore_succ, if_pos hc]
  have := occBefore_mono T (i + 1) j c hij
  omega

lemma count_eq_occBefore : ∀ (T : List Nat) (c : Nat),
    T.count c = occBefore T T.length c
  | [], _ => rfl
  | a :: S, c => by
    unfold occBefore
    rw [List.length_cons, List.range_succ_eq_map, List.countP_cons, List.countP_map]
    have hshift : ((fun j => (a :: S).getD j 0 == c) ∘ Nat.succ)
        = (fun j => S.getD j 0 == c) := by
      funext j
      rfl
    rw [hshift, ← occBefore, ← count_eq_occBefore S c]
    rcases h : a == c <;>
      simp [List.count_cons, h]

/-! ## The table `m_C` -/

lemma C_zero (T : List Nat) : C T 0 = 0 := rfl

lemma C_succ (T : List Nat) (c : Nat) : C T (c + 1) = C T c + T.count c := by
  unfold C
  rw [List.range_succ, List.map_append, List.sum_append]
  rfl

lemma C_eq_countP (T : List Nat) : ∀ c : Nat,
    C T c = (List.range T.length).countP (fun j => decide (T.getD j 0 < c)) := by
  intro c
  induction c with
  | zero => simp [C_zero]
  | succ c ih =>
    rw [C_succ, ih, count_eq_occBefore]
    unfold occBefore
    rw [← countP_or_disjoint]
    · apply List.countP_congr
      intro j _
      rcases h : decide (T.getD j 0 < c + 1) <;> simp at h <;>
        simp [h] <;> omega
    · intro j _
      rintro ⟨h1, h2⟩
      simp at h1 h2
      omega

lemma C_mono (T : List Nat) (b c : Nat) (hbc : b ≤ c) : C T b ≤ C T c := by
  rw [C_eq_countP T b, C_eq_countP T c]
  apply List.countP_mono_left
  intro j _
  simp only [decide_eq_true_eq]
  omega

lemma C_le_length (T : List Nat) (c : Nat) : C T c ≤ T.length := by
  rw [C_eq_countP T c]
  calc (List.range T.length).countP _ ≤ (List.range T.length).length :=
        List.countP_le_length _
    _ = T.length := List.length_range T.length

/-! ## Runs of the input sequence -/

/-- Between two consecutive run starts the value is constant. -/
lemma run_const (T : List Nat) (h : Nat) :
    ∀ p, h ≤ p → p < T.length → (∀ q, h < q → q ≤ p → blAt T q = false) →
      T.getD p 0 = T.getD h 0 := by
  intro p
  induction p with
  | zero =>
    intro hp _ _
    have : h = 0 := by omega
    subst this
    rfl
  | succ p ih =>
    intro hp hpl hq
    rcases Nat.lt_or_ge h (p + 1) with hlt | hge
    · have hb := hq (p + 1) (by omega) (by omega)
      have heq : T.getD (p + 1) 0 = T.getD p 0 := by
        unfold blAt at hb
        simpa using hb
      rw [heq]
      exact ih (by omega) (by omega) (fun q h1 h2 => hq q h1 (by omega))
    · have : h = p + 1 := by omega
      subst this
      rfl

/-- Occurrence count across a constant block of `c`s. -/
lemma occBefore_add_block (T : List Nat) (h c : Nat) :
    ∀ i, h ≤ i → (∀ p, h ≤ p → p < i → T.getD p 0 = c) →
      occBefore T i c = occBefore T h c + (i - h) := by
  intro i
  induction i with
  | zero =>
    intro hi _
    have : h = 0 := by omega
    subst this
    simp
  | succ i ih =>
    intro hi hconst
    rcases Nat.lt_or_ge h (i + 1) with hlt | hge
    · have h1 : occBefore T (i + 1) c = occBefore T i c + 1 := by
        rw [occBefore_succ, if_pos (hconst i (by omega) (by omega))]
      rw [h1, ih (by omega) (fun p hp1 hp2 => hconst p hp1 (by omega))]
      omega
    · have : h = i + 1 := by omega
      subst this
      simp

/-- Occurrence count across a block free of `c`s. -/
lemma occBefore_no_c_block (T : List Nat) (h c : Nat) :
    ∀ i, h ≤ i → (∀ p, h ≤ p → p < i → ¬ T.getD p 0 = c) →
      occBefore T i c = occBefore T h c := by
  intro i
  induction i with
  | zero =>
    intro hi _
    have : h = 0 := by omega
    subst this
    rfl
  | succ i ih =>
    intro hi hfree
    rcases Nat.lt_or_ge h (i + 1) with hlt | hge
    · have h1 : occBefore T (i + 1) c = occBefore T i c := by
        rw [occBefore_succ, if_neg (hfree i (by omega) (by omega))]
        omega
      rw [h1]
      exact ih (by omega) (fun p hp1 hp2 => hfree p hp1 (by omega))
    · have : h = i + 1 := by omega
      subst this
      rfl

/-- The first position holding `c` at or after `a`, when `c` still occurs. -/
lemma first_c_pos (T : List Nat) (c : Nat) :
    ∀ d a, a + d = T.length → occBefore T a c < occBefore T T.length c →
      ∃ p, a ≤ p ∧ p < T.length ∧ T.getD p 0 = c ∧
        occBefore T p c = occBefore T a c := by
  intro d
  induction d with
  | zero =>
    intro a ha hocc
    have : a = T.length := by omega
    subst this
    omega
  | succ d ih =>
    intro a ha hocc
    by_cases hc : T.getD a 0 = c
    · exact ⟨a, Nat.le_refl a, by omega, hc, rfl⟩
    · have hstep : occBefore T (a + 1) c = occBefore T a c := by
        rw [occBefore_succ, if_neg hc]
        omega
      obtain ⟨p, hp1, hp2, hp3, hp4⟩ := ih (a + 1) (by omega) (by omega)
      exact ⟨p, by omega, hp2, hp3, by omega⟩

/-- The last run start before the bound `v`, with its properties. -/
lemma last_head (T : List Nat) (v : Nat) (hv1 : 1 ≤ v) (hv : v ≤ T.length) :
    blAt T (select1 (bl T) (rank1 (bl T) v)) = true ∧
      select1 (bl T) (rank1 (bl T) v) < v ∧
      (∀ q, select1 (bl T) (rank1 (bl T) v) < q → q < v → blAt T q = false) ∧
      1 ≤ rank1 (bl T) v := by
  have hlen : v ≤ (bl T).length := by rw [bl_length]; exact hv
  have hn : 1 ≤ T.length := by omega
  have hpos : 1 ≤ rank1 (bl T) v :=
    rank1_pos _ v (by rw [bl_getD T 0 (by omega)]; exact blAt_zero T) hv1 hlen
  obtain ⟨hbit, hlt, hlast⟩ := select1_last (bl T) v hlen hpos
  have hsn : select1 (bl T) (rank1 (bl T) v) < T.length := by omega
  refine ⟨by rw [← bl_getD T _ hsn]; exact hbit, hlt, ?_, hpos⟩
  intro q hq hqv
  have := hlast q hq hqv
  rw [bl_getD T q (by omega)] at this
  exact this

/-- Reading a mapped list inside its bounds. -/
lemma map_getD_lt (L : List Nat) (f : Nat → Nat) (idx d : Nat) (h : idx < L.length) :
    (L.map f).getD idx d = f (L.getD idx 0) := by
  rw [List.getD_eq_getElem _ _ (by simpa using h), List.getD_eq_getElem _ _ h,
    List.getElem_map]

/-- The run head read through the wavelet tree is the value at the selected
run start. -/
lemma wtH_getD (T : List Nat) (k : Nat) (hk1 : 1 ≤ k)
    (hk : k ≤ (headPos T).length) :
    (wtH T).getD (k - 1) 0 = T.getD (select1 (bl T) k) 0 := by
  rw [wtH_eq_map, select1_bl, map_getD_lt _ _ _ _ (by omega)]

/-- The value at any position equals the value at the last run start before
or at it. -/
lemma value_eq_last_head (T : List Nat) (p : Nat) (hp : p < T.length) :
    T.getD p 0 = T.getD (select1 (bl T) (rank1 (bl T) (p + 1))) 0 := by
  obtain ⟨hhead, hlt, hnone, hpos⟩ := last_head T (p + 1) (by omega) (by omega)
  exact run_const T _ p (by omega) hp (fun q h1 h2 => hnone q h1 (by omega))

/-! ## Structure of `m_bf` -/

/-- The target position of pass 2 stays inside the vector. -/
lemma posval_lt_length (T : List Nat) (g : Nat) (hg : g < T.length) :
    posval T g < T.length := by
  have h1 : occBefore T g (T.getD g 0) < occBefore T T.length (T.getD g 0) :=
    occBefore_strict T g T.length (T.getD g 0) rfl hg
  have h2 : C T (T.getD g 0) + occBefore T T.length (T.getD g 0)
      = C T (T.getD g 0 + 1) := by
    rw [C_succ, count_eq_occBefore]
  have h3 : C T (T.getD g 0 + 1) ≤ T.length := C_le_length T (T.getD g 0 + 1)
  unfold posval
  omega

/-- Invariant of pass 2 of the constructor: after `k` iterations, `lf_map[c]`
holds `C[c]` plus the occurrences of `c` seen so far, and the ones of `bf`
are the sentinel plus the images of the run starts processed so far. -/
lemma bf_fold_inv (T : List Nat) : ∀ k, k ≤ T.length →
    ((List.range k).foldl (bfStep T) (bfInit T)).1
        = (fun c => C T c + occBefore T k c) ∧
      ((List.range k).foldl (bfStep T) (bfInit T)).2.length = T.length + 1 ∧
      ∀ p, p ≤ T.length →
        (((List.range k).foldl (bfStep T) (bfInit T)).2.getD p false = true ↔
          (p = T.length ∨ ∃ g, g < k ∧ blAt T g = true ∧ posval T g = p)) := by
  intro k
  induction k with
  | zero =>
    intro _
    refine ⟨by funext c; simp [bfInit, occBefore], ?_, ?_⟩
    · simp [bfInit]
    · intro p hp
      simp only [List.range_zero, List.foldl_nil, bfInit]
      rcases Nat.eq_or_lt_of_le hp with rfl | hlt
      · rw [getD_set_self]
        simp
      · rw [getD_set_ne _ _ _ _ _ (by omega)]
        constructor
        · intro habs
          rw [List.getD_eq_getElem _ _ (by rw [List.length_replicate]; omega)] at habs
          simp at habs
        · rintro (rfl | ⟨g, hg, _⟩) <;> omega
  | succ k ih =>
    intro hk
    obtain ⟨ih1, ih2, ih3⟩ := ih (by omega)
    have hkn : k < T.length := by omega
    have hunf : (List.range (k + 1)).foldl (bfStep T) (bfInit T)
        = bfStep T ((List.range k).foldl (bfStep T) (bfInit T)) k := by
      rw [List.range_succ, List.foldl_append, List.foldl_cons, List.foldl_nil]
    rw [hunf]
    set st := (List.range k).foldl (bfStep T) (bfInit T) with hst
    have hlf1 : ∀ x, st.1 x = C T x + occBefore T k x := by
      intro x
      rw [ih1]
    have hlf : ∀ x, (bfStep T st k).1 x
        = C T x + occBefore T (k + 1) x := by
      intro x
      simp only [bfStep]
      by_cases hx : x = T.getD k 0
      · rw [if_pos hx, hlf1, occBefore_succ, if_pos hx.symm, hx]
        omega
      · rw [if_neg hx, hlf1, occBefore_succ,
          if_neg (fun hh => hx hh.symm)]
        omega
    have hset : (bfStep T st k).2
        = if blAt T k then st.2.set (st.1 (T.getD k 0)) true else st.2 := rfl
    have hpos : st.1 (T.getD k 0) = posval T k := by
      rw [ih1]
      rfl
    refine ⟨by funext x; exact hlf x, ?_, ?_⟩
    · rw [hset]
      by_cases hb : blAt T k = true
      · rw [if_pos hb]
        simpa using ih2
      · rw [if_neg hb]
        exact ih2
    · intro p hp
      rw [hset]
      by_cases hb : blAt T k = true
      · rw [if_pos hb]
        by_cases hpp : p = posval T k
        · subst hpp
          rw [hpos, getD_set_self,
            if_pos (by rw [ih2]; have := posval_lt_length T k hkn; omega)]
          constructor
          · intro _
            exact Or.inr ⟨k, by omega, hb, rfl⟩
          · intro _
            rfl
        · rw [hpos, getD_set_ne _ _ _ _ _ hpp, ih3 p hp]
          constructor
          · rintro (rfl | ⟨g, hg, hg2, hg3⟩)
            · exact Or.inl rfl
            · exact Or.inr ⟨g, by omega, hg2, hg3⟩
          · rintro (rfl | ⟨g, hg, hg2, hg3⟩)
            · exact Or.inl rfl
            · refine Or.inr ⟨g, ?_, hg2, hg3⟩
              rcases Nat.lt_or_ge g k with h | h
              · exact h
              · have : g = k := by omega
                subst this
                exact absurd hg3.symm hpp
      · rw [if_neg hb]
        have hbf : blAt T k = false := by simpa using hb
        rw [ih3 p hp]
        constructor
        · rintro (rfl | ⟨g, hg, hg2, hg3⟩)
          · exact Or.inl rfl
          · exact Or.inr ⟨g, by omega, hg2, hg3⟩
        · rintro (rfl | ⟨g, hg, hg2, hg3⟩)
          · exact Or.inl rfl
          · refine Or.inr ⟨g, ?_, hg2, hg3⟩
            rcases Nat.lt_or_ge g k with h | h
            · exact h
            · have : g = k := by omega
              subst this
              rw [hbf] at hg2
              exact absurd hg2 (by simp)

/-- Length of `m_bf`. -/
lemma bf_length (T : List Nat) : (bf T).length = T.length + 1 := by
  unfold bf
  exact (bf_fold_inv T T.length (Nat.le_refl _)).2.1

/-- Which bits of `m_bf` are set: the sentinel at `n` and the image
`C[T[g]] + rank(g, T[g])` of every run start `g`. -/
lemma bf_getD_iff (T : List Nat) (p : Nat) (hp : p ≤ T.length) :
    ((bf T).getD p false = true) ↔
      (p = T.length ∨ ∃ g ∈ headPos T, posval T g = p) := by
  unfold bf
  rw [(bf_fold_inv T T.length (Nat.le_refl _)).2.2 p hp]
  constructor
  · rintro (rfl | ⟨g, hg, hg2, hg3⟩)
    · exact Or.inl rfl
    · exact Or.inr ⟨g, (mem_headPos T g).mpr ⟨hg, hg2⟩, hg3⟩
  · rintro (rfl | ⟨g, hg, hg3⟩)
    · exact Or.inl rfl
    · obtain ⟨hg1, hg2⟩ := (mem_headPos T g).mp hg
      exact Or.inr ⟨g, hg1, hg2, hg3⟩

/-- The image of a run start lies in the segment of its symbol. -/
lemma posval_segment (T : List Nat) (g : Nat) (hg : g < T.length) :
    C T (T.getD g 0) ≤ posval T g ∧ posval T g < C T (T.getD g 0 + 1) := by
  have h1 : occBefore T g (T.getD g 0) < occBefore T T.length (T.getD g 0) :=
    occBefore_strict T g T.length (T.getD g 0) rfl hg
  have h2 : C T (T.getD g 0 + 1)
      = C T (T.getD g 0) + occBefore T T.length (T.getD g 0) := by
    rw [C_succ, count_eq_occBefore]
  unfold posval
  omega

/-- `posval` separates positions with different symbols into disjoint
segments. -/
lemma posval_lt_of_symbol_lt (T : List Nat) (g g' : Nat) (hg : g < T.length)
    (hg' : g' < T.length) (hsym : T.getD g 0 < T.getD g' 0) :
    posval T g < posval T g' := by
  have h1 := (posval_segment T g hg).2
  have h2 := (posval_segment T g' hg').1
  have h3 : C T (T.getD g 0 + 1) ≤ C T (T.getD g' 0) := C_mono T _ _ (by omega)
  omega

/-- `posval` is injective on positions of the sequence. -/
lemma posval_inj (T : List Nat) (g g' : Nat) (hg : g < T.length)
    (hg' : g' < T.length) (heq : posval T g = posval T g') : g = g' := by
  rcases Nat.lt_trichotomy (T.getD g 0) (T.getD g' 0) with hlt | heqs | hgt
  · exact absurd heq (Nat.ne_of_lt (posval_lt_of_symbol_lt T g g' hg hg' hlt))
  · rcases Nat.lt_trichotomy g g' with h | h | h
    · have := occBefore_strict T g g' (T.getD g 0) rfl h
      unfold posval at heq
      rw [← heqs] at heq
      omega
    · exact h
    · have := occBefore_strict T g' g (T.getD g' 0) rfl h
      unfold posval at heq
      rw [heqs] at heq
      omega
  · exact absurd heq.symm (Nat.ne_of_lt (posval_lt_of_symbol_lt T g' g hg' hg hgt))

/-- A one of `m_bf` at the image of a run start. -/
lemma bf_one_at_head (T : List Nat) (g : Nat) (hg : g ∈ headPos T) :
    (bf T).getD (posval T g) false = true := by
  have hgl := ((mem_headPos T g).mp hg).1
  exact (bf_getD_iff T (posval T g)
    (Nat.le_of_lt (posval_lt_length T g hgl))).mpr (Or.inr ⟨g, hg, rfl⟩)

/-- `rank1` on `m_bf` counts run starts with small image. -/
lemma rank1_bf_heads (T : List Nat) (x : Nat) (hx : x ≤ T.length) :
    rank1 (bf T) x
      = ((headPos T).filter (fun g => decide (posval T g < x))).length := by
  rw [rank1_eq_countP_range (bf T) x (by rw [bf_length]; omega),
    List.countP_eq_length_filter,
    show ((headPos T).filter (fun g => decide (posval T g < x))).length
      = (((headPos T).filter (fun g => decide (posval T g < x))).map (posval T)).length
      from (List.length_map _ _).symm]
  apply length_eq_of_nodup_mem_iff
  · exact (List.nodup_range x).filter _
  · apply List.Nodup.map_on
    · intro a ha b hb hab
      have ha' := (mem_headPos T a).mp (List.mem_of_mem_filter ha)
      have hb' := (mem_headPos T b).mp (List.mem_of_mem_filter hb)
      exact posval_inj T a b ha'.1 hb'.1 hab
    · exact (headPos_nodup T).filter _
  · intro p
    rw [List.mem_filter, List.mem_range, List.mem_map]
    constructor
    · rintro ⟨hpx, hget⟩
      have hp : p ≤ T.length := by omega
      have := (bf_getD_iff T p hp).mp (by simpa using hget)
      rcases this with rfl | ⟨g, hg, hgp⟩
      · omega
      · exact ⟨g, List.mem_filter.mpr ⟨hg, by simp [hgp]; omega⟩, hgp⟩
    · rintro ⟨g, hgmem, rfl⟩
      obtain ⟨hg1, hg2⟩ := List.mem_filter.mp hgmem
      refine ⟨by simpa using hg2, ?_⟩
      simpa using bf_one_at_head T g hg1

/-- Position of the image of a run start relative to a segment cut,
by symbol comparison. -/
lemma posval_lt_cut_iff (T : List Nat) (c s g : Nat) (hs : s ≤ T.count c)
    (hg : g < T.length) :
    (posval T g < C T c + s)
      ↔ (T.getD g 0 < c ∨ (T.getD g 0 = c ∧ occBefore T g c < s)) := by
  rcases Nat.lt_trichotomy (T.getD g 0) c with hlt | heqs | hgt
  · have h1 := (posval_segment T g hg).2
    have h2 : C T (T.getD g 0 + 1) ≤ C T c := C_mono T _ _ (by omega)
    constructor
    · intro _
      exact Or.inl hlt
    · intro _
      omega
  · constructor
    · intro h
      refine Or.inr ⟨heqs, ?_⟩
      unfold posval at h
      rw [heqs] at h
      omega
    · rintro (h | ⟨_, h⟩)
      · omega
      · unfold posval
        rw [heqs]
        omega
  · have h1 := (posval_segment T g hg).1
    have hcc : C T (c + 1) = C T c + T.count c := C_succ T c
    have h2 : C T (c + 1) ≤ C T (T.getD g 0) := C_mono T _ _ (by omega)
    constructor
    · intro h
      omega
    · rintro (h | ⟨h, _⟩) <;> omega

/-- The head table entry `m_C_bf_rank[c]` counts the run starts whose symbol
is smaller than `c`. -/
lemma C_bf_rank_eq (T : List Nat) (c : Nat) :
    C_bf_rank T c = (headPos T).countP (fun g => decide (T.getD g 0 < c)) := by
  unfold C_bf_rank
  have h0 : C T c = C T c + 0 := rfl
  rw [h0, rank1_bf_heads T (C T c + 0) (by have := C_le_length T c; omega),
    List.countP_eq_length_filter]
  congr 1
  apply List.filter_congr
  intro g hgmem
  have hg := ((mem_headPos T g).mp hgmem).1
  have := posval_lt_cut_iff T c 0 g (Nat.zero_le _) hg
  rcases hh : decide (T.getD g 0 < c) with _ | _
  · simp only [decide_eq_true_eq] at this ⊢
    simp only [decide_eq_false_iff_not] at hh
    have : ¬ posval T g < C T c + 0 := by
      rw [this]
      rintro (h | ⟨_, h⟩)
      · exact hh h
      · omega
    simpa using this
  · simp only [decide_eq_true_eq] at this hh
    have : posval T g < C T c + 0 := this.mpr (Or.inl hh)
    simpa using this

/-- `rank1` of `m_bf` at a cut inside the segment of `c`. -/
lemma rank1_bf_seg (T : List Nat) (c s : Nat) (hs : s ≤ T.count c) :
    rank1 (bf T) (C T c + s)
      = C_bf_rank T c
        + (headPos T).countP
            (fun g => decide (T.getD g 0 = c) && decide (occBefore T g c < s)) := by
  have hx : C T c + s ≤ T.length := by
    have h1 : C T (c + 1) = C T c + T.count c := C_succ T c
    have h2 : C T (c + 1) ≤ T.length := C_le_length T (c + 1)
    omega
  rw [rank1_bf_heads T (C T c + s) hx, C_bf_rank_eq,
    ← List.countP_eq_length_filter]
  rw [← countP_or_disjoint]
  · apply List.countP_congr
    intro g hgmem
    have hg := ((mem_headPos T g).mp hgmem).1
    simp only [Bool.or_eq_true, Bool.and_eq_true, decide_eq_true_eq]
    exact posval_lt_cut_iff T c s g hs hg
  · intro g _
    rintro ⟨h1, h2⟩
    simp only [decide_eq_true_eq, Bool.and_eq_true] at h1 h2
    omega

/-- The run-head wavelet tree rank over the prefix determined by `i` counts
the `c`-runs that start before `i`. -/
lemma wt_rank_take (T : List Nat) (i c : Nat) (hi : i ≤ T.length) :
    wt_rank (wtH T) (rank1 (bl T) i) c
      = (headPos T).countP
          (fun g => decide (T.getD g 0 = c) && decide (g < i)) := by
  unfold wt_rank
  rw [wtH_eq_map, rank1_bl T i hi, ← List.map_take,
    sorted_take_filter (headPos T) (headPos_pairwise T) i,
    List.count_eq_countP, List.countP_map, List.countP_filter]
  apply List.countP_congr
  intro g _
  simp only [Function.comp_apply, Bool.and_eq_true, beq_iff_eq, decide_eq_true_eq]

/-- The run-head wavelet tree rank below the head at index `k - 1` counts
the earlier `c`-runs. -/
lemma wt_rank_take_head (T : List Nat) (k c : Nat) (hk1 : 1 ≤ k)
    (hk : k ≤ (headPos T).length) :
    wt_rank (wtH T) (k - 1) c
      = (headPos T).countP
          (fun g => decide (T.getD g 0 = c)
            && decide (g < (headPos T).getD (k - 1) 0)) := by
  have hcnt : ((headPos T).filter
        (fun y => decide (y < (headPos T).getD (k - 1) 0))).length = k - 1 :=
    sorted_count_below_getD _ (headPos_pairwise T) (k - 1) (by omega)
  have htf : (headPos T).take (k - 1)
      = (headPos T).filter
          (fun y => decide (y < (headPos T).getD (k - 1) 0)) := by
    conv_lhs => rw [← hcnt]
    exact sorted_take_filter (headPos T) (headPos_pairwise T) _
  unfold wt_rank
  rw [wtH_eq_map, ← List.map_take, htf,
    List.count_eq_countP, List.countP_map, List.countP_filter]
  apply List.countP_congr
  intro g _
  simp only [Function.comp_apply, Bool.and_eq_true, beq_iff_eq, decide_eq_true_eq]

/-- Selecting on `m_bf` just past the earlier `c`-runs of a `c`-run start
lands on the image of that run start. -/
lemma select1_bf_at_chead (T : List Nat) (h c : Nat) (hh : h ∈ headPos T)
    (hc : T.getD h 0 = c) :
    select1 (bf T)
        (C_bf_rank T c
          + ((headPos T).countP
              (fun g => decide (T.getD g 0 = c) && decide (g < h)) + 1))
      = C T c + occBefore T h c := by
  have hhl := ((mem_headPos T h).mp hh).1
  have hpb : posval T h = C T c + occBefore T h c := by
    unfold posval
    rw [hc]
  have hov : occBefore T h c ≤ T.count c := by
    rw [count_eq_occBefore]
    exact occBefore_mono T h T.length c (by omega)
  apply select1_eq (bf T) _ _ (by omega)
  · rw [bf_length, ← hpb]
    have := posval_lt_length T h hhl
    omega
  · rw [← hpb]
    exact bf_one_at_head T h hh
  · rw [rank1_bf_seg T c (occBefore T h c) hov]
    have hcc : (headPos T).countP
          (fun g => decide (T.getD g 0 = c)
            && decide (occBefore T g c < occBefore T h c))
        = (headPos T).countP
          (fun g => decide (T.getD g 0 = c) && decide (g < h)) := by
      apply List.countP_congr
      intro g _
      simp only [Bool.and_eq_true, decide_eq_true_eq]
      constructor
      · rintro ⟨h1, h2⟩
        refine ⟨h1, ?_⟩
        by_contra hgh
        have : occBefore T h c ≤ occBefore T g c :=
          occBefore_mono T h g c (by omega)
        omega
      · rintro ⟨h1, h2⟩
        exact ⟨h1, occBefore_strict T g h c h1 h2⟩
    rw [hcc]
    omega

/-- When no `c`-run starts before `i`, no `c` occurs before `i`. -/
lemma no_chead_no_c (T : List Nat) (i c : Nat) (hi : i ≤ T.length)
    (h0 : (headPos T).countP
        (fun g => decide (T.getD g 0 = c) && decide (g < i)) = 0) :
    occBefore T i c = 0 := by
  by_contra hocc
  have hpos0 : 0 < occBefore T i c := by omega
  obtain ⟨p, hp1, hp2⟩ := List.countP_pos_iff.mp hpos0
  have hpi : p < i := List.mem_range.mp hp1
  have hpc : T.getD p 0 = c := by simpa using hp2
  obtain ⟨hhead, hlt, hnone, hpos⟩ := last_head T (p + 1) (by omega) (by omega)
  set g := select1 (bl T) (rank1 (bl T) (p + 1)) with hgdef
  have hgc : T.getD g 0 = c := by
    rw [← value_eq_last_head T p (by omega), hpc]
  have hgmem : g ∈ headPos T := (mem_headPos T g).mpr ⟨by omega, hhead⟩
  have : 0 < (headPos T).countP
      (fun g => decide (T.getD g 0 = c) && decide (g < i)) := by
    apply List.countP_pos_iff.mpr
    refine ⟨g, hgmem, ?_⟩
    simp only [Bool.and_eq_true, decide_eq_true_eq]
    exact ⟨hgc, by omega⟩
  omega

/-! ## Correctness of the queries -/

/-- Bound on the rank over `m_bl` by the number of run starts. -/
lemma rank1_bl_le (T : List Nat) (v : Nat) (hv : v ≤ T.length) :
    rank1 (bl T) v ≤ (headPos T).length := by
  rw [headPos_length_eq]
  exact rank1_mono (bl T) v T.length hv (by rw [bl_length])

/-- Core correctness of `operator[]`: it recovers the input symbol. -/
lemma access_eq_getD (T : List Nat) (i : Nat) (hi : i < T.length) :
    access T i = T.getD i 0 := by
  unfold access wt_access
  obtain ⟨hhead, hlt, hnone, hpos⟩ := last_head T (i + 1) (by omega) (by omega)
  rw [wtH_getD T (rank1 (bl T) (i + 1)) hpos (rank1_bl_le T (i + 1) (by omega))]
  exact (value_eq_last_head T i hi).symm

/-- The occurrence count of `c` before `i` is bounded by the total count. -/
lemma occBefore_le_count (T : List Nat) (i c : Nat) (hi : i ≤ T.length) :
    occBefore T i c ≤ T.count c := by
  rw [count_eq_occBefore]
  exact occBefore_mono T i T.length c hi

/-- A one of `m_bf` sits at `C[c]` plus the occurrence count of `c` before
`i`, whenever the current run (the run of position `i - 1`) is not a
`c`-run.  This is the position the second branch of `rank` selects. -/
lemma bf_one_at_cut (T : List Nat) (i c : Nat) (_hi1 : 1 ≤ i) (hi : i ≤ T.length)
    (hprev : ¬ T.getD (i - 1) 0 = c) :
    (bf T).getD (C T c + occBefore T i c) false = true := by
  rcases Nat.lt_or_ge (occBefore T i c) (T.count c) with hlt | hge
  · -- a later occurrence of c exists; its first position is a c-run start
    obtain ⟨q, hq1, hq2, hq3, hq4⟩ := first_c_pos T c (T.length - i) i (by omega)
      (by rw [← count_eq_occBefore]; exact hlt)
    have hqhead : blAt T q = true := by
      unfold blAt
      rcases Nat.eq_zero_or_pos q with rfl | hq0
      · exact decide_eq_true (Or.inl rfl)
      · apply decide_eq_true
        refine Or.inr ?_
        rw [hq3]
        intro hcc
        have hq1c : T.getD (q - 1) 0 = c := hcc.symm
        rcases Nat.eq_or_lt_of_le hq1 with heqq | hqi
        · -- q = i: the previous position is not a c
          rw [← heqq] at hq1c
          exact hprev hq1c
        · -- q > i: no c in [i, q), in particular not at q - 1
          have : occBefore T (q - 1 + 1) c = occBefore T (q - 1) c + 1 := by
            rw [occBefore_succ, if_pos hq1c]
          have hm1 : occBefore T i c ≤ occBefore T (q - 1) c :=
            occBefore_mono T i (q - 1) c (by omega)
          have hm2 : occBefore T (q - 1 + 1) c ≤ occBefore T q c :=
            occBefore_mono T _ q c (by omega)
          omega
    have hqmem : q ∈ headPos T := (mem_headPos T q).mpr ⟨hq2, hqhead⟩
    have : posval T q = C T c + occBefore T i c := by
      unfold posval
      rw [hq3, hq4]
    rw [← this]
    exact bf_one_at_head T q hqmem
  · -- the count is saturated: the cut is the boundary C[c+1]
    have hfull : occBefore T i c = T.count c := by
      have := occBefore_le_count T i c hi
      omega
    have hx : C T c + occBefore T i c = C T (c + 1) := by
      rw [C_succ, hfull]
    rw [hx]
    rcases Nat.eq_or_lt_of_le (C_le_length T (c + 1)) with heq | hlt2
    · rw [heq]
      exact (bf_getD_iff T T.length (Nat.le_refl _)).mpr (Or.inl rfl)
    · -- some symbol above c occurs; its smallest value starts at C[c+1]
      have hex : ∃ a ∈ List.range T.length, ¬ (decide (T.getD a 0 < c + 1) = true) := by
        by_contra hall
        push_neg at hall
        have hfl := List.countP_eq_length.mpr hall
        rw [List.length_range] at hfl
        rw [C_eq_countP] at hlt2
        omega
      obtain ⟨j0, hj0r, hj0⟩ := hex
      have hj0n := List.mem_range.mp hj0r
      have hj0c : c < T.getD j0 0 := by
        simp only [decide_eq_true_eq] at hj0
        omega
      -- the smallest symbol above c that occurs in T
      have hVne : (T.filter (fun v => decide (c < v))).toFinset.Nonempty := by
        refine ⟨T.getD j0 0, ?_⟩
        rw [List.mem_toFinset, List.mem_filter]
        constructor
        · rw [List.getD_eq_getElem _ _ hj0n]
          exact List.getElem_mem _
        · exact decide_eq_true hj0c
      set b := (T.filter (fun v => decide (c < v))).toFinset.min' hVne with hbdef
      have hbmem : b ∈ T ∧ c < b := by
        have := (T.filter (fun v => decide (c < v))).toFinset.min'_mem hVne
        rw [List.mem_toFinset, List.mem_filter] at this
        exact ⟨this.1, of_decide_eq_true this.2⟩
      have hbmin : ∀ v ∈ T, c < v → b ≤ v := by
        intro v hv hcv
        apply Finset.min'_le
        rw [List.mem_toFinset, List.mem_filter]
        exact ⟨hv, decide_eq_true hcv⟩
      -- first occurrence of b
      have hbcount : 0 < T.count b := List.count_pos_iff.mpr hbmem.1
      obtain ⟨q, hq1, hq2, hq3, hq4⟩ := first_c_pos T b T.length 0 (by omega)
        (by rw [← count_eq_occBefore]; simpa [occBefore] using hbcount)
      have hq40 : occBefore T q b = 0 := by
        rw [hq4]
        rfl
      have hqhead : blAt T q = true := by
        unfold blAt
        rcases Nat.eq_zero_or_pos q with rfl | hq0
        · exact decide_eq_true (Or.inl rfl)
        · apply decide_eq_true
          refine Or.inr ?_
          rw [hq3]
          intro hcc
          have : occBefore T (q - 1 + 1) b = occBefore T (q - 1) b + 1 := by
            rw [occBefore_succ, if_pos hcc.symm]
          have : 0 < occBefore T q b := by
            have hm : occBefore T (q - 1 + 1) b ≤ occBefore T q b :=
              occBefore_mono T _ q b (by omega)
            omega
          omega
      have hqmem : q ∈ headPos T := (mem_headPos T q).mpr ⟨hq2, hqhead⟩
      -- no symbol strictly between c and b occurs in T
      have hmid : ∀ j ∈ List.range T.length,
          ¬ ((decide (c + 1 ≤ T.getD j 0) && decide (T.getD j 0 < b)) = true) := by
        intro j hj
        intro hcc
        simp only [Bool.and_eq_true, decide_eq_true_eq] at hcc
        have hjn := List.mem_range.mp hj
        have hjmem : T.getD j 0 ∈ T := by
          rw [List.getD_eq_getElem _ _ hjn]
          exact List.getElem_mem _
        have := hbmin (T.getD j 0) hjmem (by omega)
        omega
      -- hence C[b] = C[c+1]
      have hCb : C T b = C T (c + 1) := by
        have hcb1 : c + 1 ≤ b := hbmem.2
        rw [C_eq_countP T b, C_eq_countP T (c + 1)]
        have hsplit : (List.range T.length).countP (fun j => decide (T.getD j 0 < b))
            = (List.range T.length).countP (fun j => decide (T.getD j 0 < c + 1))
              + (List.range T.length).countP
                  (fun j => decide (c + 1 ≤ T.getD j 0) && decide (T.getD j 0 < b)) := by
          rw [← countP_or_disjoint]
          · apply List.countP_congr
            intro j _
            simp only [Bool.or_eq_true, Bool.and_eq_true, decide_eq_true_eq]
            constructor
            · intro hjb
              rcases Nat.lt_or_ge (T.getD j 0) (c + 1) with h | h
              · exact Or.inl h
              · exact Or.inr ⟨h, hjb⟩
            · rintro (h | ⟨h1, h2⟩) <;> omega
          · intro j _
            rintro ⟨h1, h2⟩
            simp only [decide_eq_true_eq, Bool.and_eq_true] at h1 h2
            omega
        have hzero : (List.range T.length).countP
            (fun j => decide (c + 1 ≤ T.getD j 0) && decide (T.getD j 0 < b)) = 0 :=
          List.countP_eq_zero.mpr hmid
        omega
      have : posval T q = C T (c + 1) := by
        unfold posval
        rw [hq3, hq40, ← hCb]
        omega
      rw [← this]
      exact bf_one_at_head T q hqmem

/-- Unfolding of `rank` for a positive index. -/
lemma rank_of_ne_zero (T : List Nat) (i c : Nat) (h : ¬ i = 0) :
    rank T i c
      = (if wt_rank (wtH T) (rank1 (bl T) i) c = 0 then 0
        else if wt_access (wtH T) (rank1 (bl T) i - 1) = c then
          select1 (bf T) (C_bf_rank T c + wt_rank (wtH T) (rank1 (bl T) i) c)
            - C T c + i - select1 (bl T) (rank1 (bl T) i)
        else
          select1 (bf T) (C_bf_rank T c + wt_rank (wtH T) (rank1 (bl T) i) c + 1)
            - C T c) := by
  unfold rank
  rw [if_neg h]

/-- Core correctness of `rank`: it counts the occurrences of `c` before
`i`. -/
lemma rank_eq_occBefore (T : List Nat) (i c : Nat) (hi : i ≤ T.length) :
    rank T i c = occBefore T i c := by
  rcases Nat.eq_zero_or_pos i with rfl | hi1
  · unfold rank occBefore
    simp
  rw [rank_of_ne_zero T i c (by omega)]
  obtain ⟨hhead, hlt, hnone, hpos⟩ := last_head T i (by omega) hi
  have hKdef := wt_rank_take T i c hi
  by_cases hK0 : wt_rank (wtH T) (rank1 (bl T) i) c = 0
  · rw [if_pos hK0]
    rw [hKdef] at hK0
    exact (no_chead_no_c T i c hi hK0).symm
  rw [if_neg hK0]
  have hkle : rank1 (bl T) i ≤ (headPos T).length := rank1_bl_le T i hi
  have hacc : wt_access (wtH T) (rank1 (bl T) i - 1)
      = T.getD (select1 (bl T) (rank1 (bl T) i)) 0 := by
    unfold wt_access
    exact wtH_getD T (rank1 (bl T) i) hpos hkle
  by_cases hbr : wt_access (wtH T) (rank1 (bl T) i - 1) = c
  · -- the current run is a c-run
    rw [if_pos hbr]
    have hhc : T.getD (select1 (bl T) (rank1 (bl T) i)) 0 = c := by
      rw [← hacc]
      exact hbr
    have hhmem : select1 (bl T) (rank1 (bl T) i) ∈ headPos T :=
      (mem_headPos T _).mpr ⟨by omega, hhead⟩
    have hone : (headPos T).countP
        (fun g => decide (g = select1 (bl T) (rank1 (bl T) i))) = 1 := by
      have hcnt := List.count_eq_one_of_mem (headPos_nodup T) hhmem
      rw [List.count_eq_countP] at hcnt
      rw [← hcnt]
      apply List.countP_congr
      intro g _
      simp [beq_iff_eq]
    have hsplit : wt_rank (wtH T) (rank1 (bl T) i) c
        = (headPos T).countP
            (fun g => decide (T.getD g 0 = c)
              && decide (g < select1 (bl T) (rank1 (bl T) i))) + 1 := by
      rw [hKdef, ← hone, ← countP_or_disjoint (headPos T)
        (fun g => decide (T.getD g 0 = c)
          && decide (g < select1 (bl T) (rank1 (bl T) i)))
        (fun g => decide (g = select1 (bl T) (rank1 (bl T) i)))
        (by
          intro g _
          rintro ⟨h1, h2⟩
          simp only [decide_eq_true_eq, Bool.and_eq_true] at h1 h2
          omega)]
      apply List.countP_congr
      intro g hg
      simp only [Bool.or_eq_true, Bool.and_eq_true, decide_eq_true_eq]
      constructor
      · rintro ⟨h1, h2⟩
        rcases Nat.lt_trichotomy g (select1 (bl T) (rank1 (bl T) i)) with hc1 | hc1 | hc1
        · exact Or.inl ⟨h1, hc1⟩
        · exact Or.inr hc1
        · have := hnone g hc1 h2
          have := ((mem_headPos T g).mp hg).2
          simp_all
      · rintro (⟨h1, h2⟩ | h1)
        · exact ⟨h1, by omega⟩
        · subst h1
          exact ⟨hhc, by omega⟩
    have hsel := select1_bf_at_chead T (select1 (bl T) (rank1 (bl T) i)) c hhmem hhc
    rw [hsplit, hsel]
    have hocc : occBefore T i c
        = occBefore T (select1 (bl T) (rank1 (bl T) i)) c
          + (i - select1 (bl T) (rank1 (bl T) i)) := by
      apply occBefore_add_block T _ c i (by omega)
      intro p hp1 hp2
      rw [run_const T _ p hp1 (by omega) (fun q h1 h2 => hnone q h1 (by omega)), hhc]
    omega
  · -- the current run is not a c-run
    rw [if_neg hbr]
    have hprev : ¬ T.getD (i - 1) 0 = c := by
      have hconst : T.getD (i - 1) 0
          = T.getD (select1 (bl T) (rank1 (bl T) i)) 0 :=
        run_const T _ (i - 1) (by omega) (by omega)
          (fun q h1 h2 => hnone q h1 (by omega))
      rw [hconst]
      intro hcc
      exact hbr (by rw [hacc]; exact hcc)
    have hKocc : (headPos T).countP
          (fun g => decide (T.getD g 0 = c)
            && decide (occBefore T g c < occBefore T i c))
        = (headPos T).countP
          (fun g => decide (T.getD g 0 = c) && decide (g < i)) := by
      apply List.countP_congr
      intro g _
      simp only [Bool.and_eq_true, decide_eq_true_eq]
      constructor
      · rintro ⟨h1, h2⟩
        refine ⟨h1, ?_⟩
        by_contra hgi
        have : occBefore T i c ≤ occBefore T g c :=
          occBefore_mono T i g c (by omega)
        omega
      · rintro ⟨h1, h2⟩
        exact ⟨h1, occBefore_strict T g i c h1 h2⟩
    have hx_le : occBefore T i c ≤ T.count c := occBefore_le_count T i c hi
    have hrank1x : rank1 (bf T) (C T c + occBefore T i c)
        = C_bf_rank T c + wt_rank (wtH T) (rank1 (bl T) i) c := by
      rw [rank1_bf_seg T c _ hx_le, hKocc, hKdef]
    have hxn : C T c + occBefore T i c ≤ T.length := by
      have h1 := C_succ T c
      have h2 := C_le_length T (c + 1)
      omega
    have hbfx := bf_one_at_cut T i c (by omega) hi hprev
    have hsel : select1 (bf T)
        (C_bf_rank T c + wt_rank (wtH T) (rank1 (bl T) i) c + 1)
        = C T c + occBefore T i c := by
      apply select1_eq _ _ _ (by omega) (by rw [bf_length]; omega) hbfx
      rw [hrank1x]
      omega
    rw [hsel]
    omega

/-- Elements of a prefix of a strictly sorted list are bounded by the last
entry of the prefix. -/
lemma sorted_take_le : ∀ (m : Nat) (M : List Nat), M.Pairwise (· < ·) →
    m + 1 ≤ M.length → ∀ x ∈ M.take (m + 1), x ≤ M.getD m 0 := by
  intro m
  induction m with
  | zero =>
    intro M hM hlen x hx
    rcases M with _ | ⟨b, t⟩
    · simp at hlen
    · simp only [List.take_succ_cons, List.take_zero] at hx
      have : x = b := by simpa using hx
      simp [this]
  | succ m ih =>
    intro M hM hlen x hx
    rcases M with _ | ⟨b, t⟩
    · simp at hlen
    · rw [List.take_succ_cons] at hx
      rcases List.mem_cons.mp hx with rfl | hxt
      · have hlast : t.getD m 0 ∈ t := by
          rw [List.getD_eq_getElem _ _ (by simp at hlen; omega)]
          exact List.getElem_mem _
        have := (List.pairwise_cons.mp hM).1 _ hlast
        have hgd : (x :: t).getD (m + 1) 0 = t.getD m 0 := rfl
        omega
      · have := ih t (List.pairwise_cons.mp hM).2 (by simp at hlen; omega) x hxt
        have hgd : (b :: t).getD (m + 1) 0 = t.getD m 0 := rfl
        omega

/-- Length of the run-head string. -/
lemma wtH_length (T : List Nat) : (wtH T).length = (headPos T).length := by
  rw [wtH_eq_map, List.length_map]

/-- The first run start sits at position zero. -/
lemma headPos_getD_zero (T : List Nat) (hn : 1 ≤ T.length) :
    (headPos T).getD 0 0 = 0 := by
  apply sorted_getD_eq (headPos T) (headPos_pairwise T) 0 0
  · exact (mem_headPos T 0).mpr ⟨by omega, blAt_zero T⟩
  · rw [List.filter_eq_nil_iff.mpr]
    · rfl
    · intro y _
      simp

/-- Unfolding of `inverse_select` for a positive index. -/
lemma inverse_select_of_ne_zero (T : List Nat) (i : Nat) (h : ¬ i = 0) :
    inverse_select T i
      = (if (wt_inverse_select (wtH T) (rank1 (bl T) (i + 1) - 1)).1 + 1 = 0 then
          (0, (wt_inverse_select (wtH T) (rank1 (bl T) (i + 1) - 1)).2)
        else if wt_access (wtH T) (rank1 (bl T) (i + 1) - 1)
            = (wt_inverse_select (wtH T) (rank1 (bl T) (i + 1) - 1)).2 then
          (select1 (bf T)
              (C_bf_rank T (wt_inverse_select (wtH T) (rank1 (bl T) (i + 1) - 1)).2
                + ((wt_inverse_select (wtH T) (rank1 (bl T) (i + 1) - 1)).1 + 1))
            - C T (wt_inverse_select (wtH T) (rank1 (bl T) (i + 1) - 1)).2
            + i - select1 (bl T) (rank1 (bl T) (i + 1)),
            (wt_inverse_select (wtH T) (rank1 (bl T) (i + 1) - 1)).2)
        else
          (select1 (bf T)
              (C_bf_rank T (wt_inverse_select (wtH T) (rank1 (bl T) (i + 1) - 1)).2
                + ((wt_inverse_select (wtH T) (rank1 (bl T) (i + 1) - 1)).1 + 1) + 1)
            - C T (wt_inverse_select (wtH T) (rank1 (bl T) (i + 1) - 1)).2,
            (wt_inverse_select (wtH T) (rank1 (bl T) (i + 1) - 1)).2)) := by
  unfold inverse_select
  rw [if_neg h]

/-- Core correctness of `inverse_select`: it returns the occurrence count of
the symbol at `i` before `i`, fused with that symbol. -/
lemma inverse_select_eq (T : List Nat) (i : Nat) (hi : i < T.length) :
    inverse_select T i = (occBefore T i (T.getD i 0), T.getD i 0) := by
  have hn1 : 1 ≤ T.length := by omega
  have hhead1 : 1 ≤ (headPos T).length := by
    have : 0 ∈ headPos T := (mem_headPos T 0).mpr ⟨by omega, blAt_zero T⟩
    exact List.length_pos.mpr (List.ne_nil_of_mem this)
  rcases Nat.eq_zero_or_pos i with rfl | hi1
  · unfold inverse_select
    rw [if_pos rfl]
    have hsel1 : select1 (bl T) 1 = 0 := by
      rw [select1_bl]
      exact headPos_getD_zero T hn1
    have h0 : wt_access (wtH T) 0 = T.getD 0 0 := by
      unfold wt_access
      have := wtH_getD T 1 (Nat.le_refl 1) hhead1
      rw [hsel1] at this
      exact this
    rw [h0]
    rfl
  · rw [inverse_select_of_ne_zero T i (by omega)]
    obtain ⟨hhead, hlt, hnone, hpos⟩ := last_head T (i + 1) (by omega) (by omega)
    have hkle : rank1 (bl T) (i + 1) ≤ (headPos T).length :=
      rank1_bl_le T (i + 1) (by omega)
    have hacc : (wtH T).getD (rank1 (bl T) (i + 1) - 1) 0
        = T.getD (select1 (bl T) (rank1 (bl T) (i + 1))) 0 :=
      wtH_getD T (rank1 (bl T) (i + 1)) hpos hkle
    have hval : T.getD i 0 = T.getD (select1 (bl T) (rank1 (bl T) (i + 1))) 0 :=
      value_eq_last_head T i hi
    have hp2 : (wt_inverse_select (wtH T) (rank1 (bl T) (i + 1) - 1)).2
        = T.getD (select1 (bl T) (rank1 (bl T) (i + 1))) 0 := by
      unfold wt_inverse_select
      exact hacc
    have hp1 : (wt_inverse_select (wtH T) (rank1 (bl T) (i + 1) - 1)).1
        = (headPos T).countP
            (fun g => decide (T.getD g 0
                = T.getD (select1 (bl T) (rank1 (bl T) (i + 1))) 0)
              && decide (g < select1 (bl T) (rank1 (bl T) (i + 1)))) := by
      unfold wt_inverse_select
      rw [hacc]
      have := wt_rank_take_head T (rank1 (bl T) (i + 1))
        (T.getD (select1 (bl T) (rank1 (bl T) (i + 1))) 0) hpos hkle
      unfold wt_rank at this
      rw [this, select1_bl]
    rw [if_neg (by omega)]
    rw [if_pos (by unfold wt_access; rw [hp2]; exact hacc)]
    have hhmem : select1 (bl T) (rank1 (bl T) (i + 1)) ∈ headPos T :=
      (mem_headPos T _).mpr ⟨by omega, hhead⟩
    have hsel := select1_bf_at_chead T (select1 (bl T) (rank1 (bl T) (i + 1)))
      (T.getD (select1 (bl T) (rank1 (bl T) (i + 1))) 0) hhmem rfl
    have hocc : occBefore T i (T.getD i 0)
        = occBefore T (select1 (bl T) (rank1 (bl T) (i + 1)))
            (T.getD i 0)
          + (i - select1 (bl T) (rank1 (bl T) (i + 1))) := by
      apply occBefore_add_block T _ _ i (by omega)
      intro p hp1' hp2'
      rw [run_const T _ p hp1' (by omega) (fun q h1 h2 => hnone q h1 (by omega)),
        ← hval]
    rw [hp1, hp2, ← hval]
    have hval' : T.getD (select1 (bl T) (rank1 (bl T) (i + 1))) 0 = T.getD i 0 :=
      hval.symm
    rw [hval'] at hsel
    rw [hsel]
    refine Prod.ext ?_ rfl
    simp only
    omega

/-- Core correctness of `select`: the returned position holds the `j`-th
occurrence of `c`. -/
lemma select_eq_pos (T : List Nat) (j c : Nat) (hj1 : 1 ≤ j)
    (hj2 : j ≤ T.count c) :
    select T j c < T.length ∧ T.getD (select T j c) 0 = c ∧
      occBefore T (select T j c) c = j - 1 := by
  have hcpos : 0 < T.count c := by omega
  have hocc_n : T.count c = occBefore T T.length c := count_eq_occBefore T c
  have hn1 : 1 ≤ T.length := by
    rcases T with _ | ⟨a, t⟩
    · simp at hcpos
    · simp
  set cH := (headPos T).filter (fun g => decide (T.getD g 0 = c)) with hcH
  have hcHs : cH.Pairwise (· < ·) := (headPos_pairwise T).filter _
  have hcHfacts : ∀ g ∈ cH, g < T.length ∧ blAt T g = true ∧ T.getD g 0 = c := by
    intro g hg
    obtain ⟨hg1, hg2⟩ := List.mem_filter.mp hg
    obtain ⟨hg3, hg4⟩ := (mem_headPos T g).mp hg1
    exact ⟨hg3, hg4, of_decide_eq_true hg2⟩
  set K := (headPos T).countP
    (fun g => decide (T.getD g 0 = c) && decide (occBefore T g c < j)) with hK
  have hKcH : K
      = (cH.filter (fun g => decide (occBefore T g c < j))).length := by
    rw [hK, hcH, ← List.countP_eq_length_filter, List.countP_filter]
    apply List.countP_congr
    intro g _
    simp only [Bool.and_eq_true, decide_eq_true_eq]
    constructor
    · rintro ⟨h1, h2⟩
      exact ⟨h2, h1⟩
    · rintro ⟨h1, h2⟩
      exact ⟨h2, h1⟩
  have hK1 : 1 ≤ K := by
    obtain ⟨q0, hq01, hq02, hq03, hq04⟩ := first_c_pos T c T.length 0 (by omega)
      (by
        have : occBefore T 0 c = 0 := rfl
        omega)
    have hq0occ : occBefore T q0 c = 0 := by
      rw [hq04]
      rfl
    have hq0head : blAt T q0 = true := by
      unfold blAt
      rcases Nat.eq_zero_or_pos q0 with rfl | hq00
      · exact decide_eq_true (Or.inl rfl)
      · apply decide_eq_true
        refine Or.inr ?_
        rw [hq03]
        intro hcc
        have h1 : occBefore T (q0 - 1 + 1) c = occBefore T (q0 - 1) c + 1 := by
          rw [occBefore_succ, if_pos hcc.symm]
        have h2 : occBefore T (q0 - 1 + 1) c ≤ occBefore T q0 c :=
          occBefore_mono T _ q0 c (by omega)
        omega
    rw [hK]
    apply Nat.succ_le_of_lt
    apply List.countP_pos_iff.mpr
    refine ⟨q0, (mem_headPos T q0).mpr ⟨hq02, hq0head⟩, ?_⟩
    simp only [Bool.and_eq_true, decide_eq_true_eq]
    exact ⟨hq03, by omega⟩
  have hdc : ∀ a ∈ cH, ∀ b ∈ cH, a < b →
      (fun g => decide (occBefore T g c < j)) b = true →
      (fun g => decide (occBefore T g c < j)) a = true := by
    intro a ha b hb hab hb2
    have h1 := (hcHfacts a ha).2.2
    have h2 := of_decide_eq_true hb2
    apply decide_eq_true
    have := occBefore_strict T a b c h1 hab
    omega
  have hpretake : cH.filter (fun g => decide (occBefore T g c < j))
      = cH.take K := by
    rw [sorted_filter_initial cH hcHs _ hdc, ← hKcH]
  have hKle : K ≤ cH.length := by
    rw [hKcH]
    exact List.length_filter_le _ _
  set h := cH.getD (K - 1) 0 with hh
  have hhtake : h ∈ cH.take K := by
    have hlen : K - 1 < (cH.take K).length := by
      rw [List.length_take]
      omega
    have hgd : (cH.take K).getD (K - 1) 0 = h := by
      rw [hh]
      exact getD_take_lt cH K (K - 1) 0 (by omega)
    rw [← hgd, List.getD_eq_getElem _ _ hlen]
    exact List.getElem_mem _
  have hhfil : h ∈ cH.filter (fun g => decide (occBefore T g c < j)) := by
    rw [hpretake]
    exact hhtake
  have hhcH : h ∈ cH := List.mem_of_mem_filter hhfil
  obtain ⟨hhn, hhhead, hhc⟩ := hcHfacts h hhcH
  have hsj : occBefore T h c < j :=
    of_decide_eq_true (List.mem_filter.mp hhfil).2
  have hhmem : h ∈ headPos T := (List.mem_filter.mp hhcH).1
  have hbelow : (cH.filter (fun y => decide (y < h))).length = K - 1 := by
    rw [hh]
    exact sorted_count_below_getD cH hcHs (K - 1) (by omega)
  -- value of c_runs in the code
  have hcr : rank1 (bf T) (C T c + j) - C_bf_rank T c = K := by
    rw [rank1_bf_seg T c j hj2, ← hK]
    omega
  -- the countP with cut at occBefore T h c
  have hcnt2 : (headPos T).countP
      (fun g => decide (T.getD g 0 = c)
        && decide (occBefore T g c < occBefore T h c)) = K - 1 := by
    rw [← hbelow, ← List.countP_eq_length_filter, hcH, List.countP_filter]
    apply List.countP_congr
    intro g hg
    simp only [Bool.and_eq_true, decide_eq_true_eq]
    constructor
    · rintro ⟨h1, h2⟩
      refine ⟨?_, h1⟩
      by_contra hgh
      have : occBefore T h c ≤ occBefore T g c :=
        occBefore_mono T h g c (by omega)
      omega
    · rintro ⟨h1, h2⟩
      exact ⟨h2, occBefore_strict T g h c h2 h1⟩
  have hsle : occBefore T h c ≤ T.count c := occBefore_le_count T h c (by omega)
  -- the select on m_bf inside the offset computation
  have hself : select1 (bf T) (rank1 (bf T) (C T c + j) - C_bf_rank T c
      + C_bf_rank T c) = C T c + occBefore T h c := by
    rw [hcr]
    have hxn : C T c + occBefore T h c ≤ T.length := by
      have h1 := C_succ T c
      have h2 := C_le_length T (c + 1)
      omega
    apply select1_eq _ _ _ (by omega) (by rw [bf_length]; omega)
    · have hpv : posval T h = C T c + occBefore T h c := by
        unfold posval
        rw [hhc]
      rw [← hpv]
      exact bf_one_at_head T h hhmem
    · rw [rank1_bf_seg T c _ hsle, hcnt2]
      omega
  -- the index of the K-th c-run in the run-head string
  have hwt : select1 (bl T)
      (wt_select (wtH T) (rank1 (bf T) (C T c + j) - C_bf_rank T c) c + 1)
      = h := by
    rw [hcr]
    have hidx : ((List.range (wtH T).length).filter
          (fun p => (wtH T).getD p 0 == c))
        = ((List.range (headPos T).length).filter
          (fun k => decide (T.getD ((headPos T).getD k 0) 0 = c))) := by
      rw [wtH_length]
      apply List.filter_congr
      intro k hk
      have hkl := List.mem_range.mp hk
      rw [wtH_eq_map, map_getD_lt _ _ _ _ hkl]
      by_cases hc2 : T.getD ((headPos T).getD k 0) 0 = c
      · rw [decide_eq_true hc2, beq_iff_eq.mpr hc2]
      · rw [decide_eq_false hc2, beq_eq_false_iff_ne.mpr hc2]
    have hmapeq := filter_index_map (headPos T) (fun g => decide (T.getD g 0 = c))
    have hlenidx : ((List.range (headPos T).length).filter
        (fun k => decide (T.getD ((headPos T).getD k 0) 0 = c))).length
        = cH.length := by
      rw [hcH, ← hmapeq, List.length_map]
    have hwtsel : wt_select (wtH T) K c
        = ((List.range (headPos T).length).filter
            (fun k => decide (T.getD ((headPos T).getD k 0) 0 = c))).getD
            (K - 1) 0 := by
      unfold wt_select
      rw [hidx]
    have hgd2 : (headPos T).getD
        (((List.range (headPos T).length).filter
          (fun k => decide (T.getD ((headPos T).getD k 0) 0 = c))).getD (K - 1) 0) 0
        = cH.getD (K - 1) 0 := by
      have hmap := map_getD_lt
        ((List.range (headPos T).length).filter
          (fun k => decide (T.getD ((headPos T).getD k 0) 0 = c)))
        (fun k => (headPos T).getD k 0) (K - 1) 0 (by omega)
      rw [hmapeq] at hmap
      rw [← hcH] at hmap
      exact hmap.symm
    rw [hwtsel, select1_bl, Nat.add_sub_cancel, hgd2]
  -- run extension: the j-th c sits inside the run starting at h
  have hrun : ∀ p, p ≤ j - 1 - occBefore T h c →
      (h + p < T.length ∧ occBefore T (h + p) c = occBefore T h c + p ∧
        T.getD (h + p) 0 = c) := by
    intro p
    induction p with
    | zero =>
      intro _
      refine ⟨by omega, ?_, ?_⟩
      · rw [Nat.add_zero, Nat.add_zero]
      · rw [Nat.add_zero]
        exact hhc
    | succ p ih =>
      intro hp
      obtain ⟨ih1, ih2, ih3⟩ := ih (by omega)
      have hstep : occBefore T (h + p + 1) c = occBefore T h c + p + 1 := by
        rw [occBefore_succ, if_pos ih3]
        omega
      have hlt2 : occBefore T h c + p + 1 ≤ j - 1 := by omega
      obtain ⟨q, hq1, hq2, hq3, hq4⟩ := first_c_pos T c (T.length - (h + p + 1))
        (h + p + 1) (by omega) (by omega)
      have hqe : q = h + p + 1 := by
        by_contra hne
        have hqgt : h + p + 1 < q := by omega
        have hq1c : ¬ T.getD (q - 1) 0 = c := by
          intro hcc
          have h1 : occBefore T (q - 1 + 1) c = occBefore T (q - 1) c + 1 := by
            rw [occBefore_succ, if_pos hcc]
          have h2 : occBefore T (h + p + 1) c ≤ occBefore T (q - 1) c :=
            occBefore_mono T _ _ c (by omega)
          have h3 : occBefore T (q - 1 + 1) c ≤ occBefore T q c :=
            occBefore_mono T _ q c (by omega)
          omega
        have hqhead : blAt T q = true := by
          unfold blAt
          apply decide_eq_true
          refine Or.inr ?_
          rw [hq3]
          exact fun hcc => hq1c hcc.symm
        have hqcH : q ∈ cH := by
          rw [hcH]
          exact List.mem_filter.mpr
            ⟨(mem_headPos T q).mpr ⟨hq2, hqhead⟩, decide_eq_true hq3⟩
        have hqP : occBefore T q c < j := by
          rw [hq4, hstep]
          omega
        have hqfil : q ∈ cH.take K := by
          rw [← hpretake]
          exact List.mem_filter.mpr ⟨hqcH, decide_eq_true hqP⟩
        have hqle : q ≤ cH.getD (K - 1) 0 := by
          apply sorted_take_le (K - 1) cH hcHs (by omega) q
          rw [show K - 1 + 1 = K by omega]
          exact hqfil
        rw [← hh] at hqle
        omega
      refine ⟨by omega, ?_, ?_⟩
      · rw [show h + (p + 1) = h + p + 1 by omega, hstep]
        omega
      · rw [show h + (p + 1) = h + p + 1 by omega, ← hqe]
        exact hq3
  obtain ⟨hf1, hf2, hf3⟩ := hrun (j - 1 - occBefore T h c) (Nat.le_refl _)
  -- unfold select and assemble
  have hunfold : select T j c
      = select1 (bl T)
          (wt_select (wtH T) (rank1 (bf T) (C T c + j) - C_bf_rank T c) c + 1)
        + (C T c + j - 1
            - select1 (bf T) (rank1 (bf T) (C T c + j) - C_bf_rank T c
              + C_bf_rank T c)) := rfl
  have hoffv : C T c + j - 1
      - select1 (bf T) (rank1 (bf T) (C T c + j) - C_bf_rank T c
        + C_bf_rank T c) = j - 1 - occBefore T h c := by
    rw [hself]
    omega
  rw [hunfold, hoffv, hwt]
  refine ⟨hf1, hf3, ?_⟩
  rw [hf2]
  omega

/-! ## Counting the ones of `m_bl` and `m_bf` -/

/-- Length of a `filterMap` that keeps exactly the elements passing a
test. -/
lemma filterMap_if_length : ∀ (l : List Nat) (p : Nat → Bool) (f : Nat → Nat),
    (l.filterMap (fun i => if p i then some (f i) else none)).length
      = l.countP p
  | [], _, _ => rfl
  | a :: t, p, f => by
    rw [List.filterMap_cons, List.countP_cons]
    rcases hp : p a with _ | _
    · rw [if_neg (by simp [hp])]
      rw [filterMap_if_length t p f]
      simp [hp]
    · rw [if_pos rfl]
      rw [List.length_cons, filterMap_if_length t p f]
      simp

/-- The number of run heads counted positionally. -/
lemma wtH_length_countP (T : List Nat) :
    (wtH T).length = (List.range T.length).countP (blAt T) := by
  unfold wtH
  exact filterMap_if_length _ _ _

/-- Splitting a positional count at position zero. -/
lemma countP_range_succ_shift (k : Nat) (p : Nat → Bool) :
    (List.range (k + 1)).countP p
      = (if p 0 then 1 else 0) + (List.range k).countP (fun i => p (i + 1)) := by
  rw [List.range_succ_eq_map, List.countP_cons, List.countP_map]
  have : (p ∘ Nat.succ) = fun i => p (i + 1) := rfl
  rw [this]
  rcases hp : p 0 with _ | _
  · simp [hp]
  · simp [hp]
    omega

/-- Shifting the run-start test across two cons cells. -/
lemma blAt_cons_shift (a b : Nat) (t : List Nat) (i : Nat) :
    blAt (a :: b :: t) (i + 2) = blAt (b :: t) (i + 1) := by
  unfold blAt
  apply decide_eq_decide.mpr
  have h1 : (a :: b :: t).getD (i + 2) 0 = (b :: t).getD (i + 1) 0 := rfl
  have h2 : (a :: b :: t).getD (i + 2 - 1) 0 = (b :: t).getD (i + 1 - 1) 0 := rfl
  rw [h1, h2]
  constructor
  · rintro (h | h)
    · omega
    · exact Or.inr h
  · rintro (h | h)
    · omega
    · exact Or.inr h

/-- The length of the run-head string is the number of maximal runs. -/
lemma wtH_len_runs : ∀ T : List Nat, (wtH T).length = numRuns T
  | [] => rfl
  | [_] => rfl
  | a :: b :: t => by
    have hrec : (wtH (b :: t)).length = numRuns (b :: t) := wtH_len_runs (b :: t)
    have hnum : numRuns (a :: b :: t)
        = (if a = b then 0 else 1) + numRuns (b :: t) := rfl
    rw [hnum, ← hrec, wtH_length_countP, wtH_length_countP]
    have hlen2 : (a :: b :: t).length = t.length + 1 + 1 := by
      simp
    have hlen1 : (b :: t).length = t.length + 1 := by simp
    rw [hlen2, hlen1]
    rw [countP_range_succ_shift (t.length + 1) (blAt (a :: b :: t)),
      countP_range_succ_shift t.length (fun i => blAt (a :: b :: t) (i + 1)),
      countP_range_succ_shift t.length (blAt (b :: t))]
    have hshift : (List.range t.length).countP
          (fun i => blAt (a :: b :: t) (i + 1 + 1))
        = (List.range t.length).countP (fun i => blAt (b :: t) (i + 1)) := by
      apply List.countP_congr
      intro i _
      rw [show i + 1 + 1 = i + 2 from rfl, blAt_cons_shift a b t i]
    rw [hshift]
    have h0a : blAt (a :: b :: t) 0 = true := blAt_zero _
    have h0b : blAt (b :: t) 0 = true := blAt_zero _
    have h1a : blAt (a :: b :: t) (0 + 1) = decide (¬ b = a) := by
      unfold blAt
      apply decide_eq_decide.mpr
      constructor
      · rintro (h | h)
        · omega
        · exact fun hh => h (by rw [hh]; rfl)
      · intro h
        refine Or.inr ?_
        intro hh
        exact h (by exact hh)
    rw [h0a, h0b, h1a]
    by_cases hab : a = b
    · rw [if_pos hab]
      have : decide (¬ b = a) = false := by
        simp [hab]
      rw [this]
      simp
    · rw [if_neg hab]
      have : decide (¬ b = a) = true := by
        simp
        exact fun hh => hab hh.symm
      rw [this]
      simp

/-- The ones of `m_bl` count the runs. -/
lemma bl_ones_count (T : List Nat) :
    (bl T).countP (fun x => x) = numRuns T := by
  have h1 : (bl T).countP (fun x => x) = rank1 (bl T) (bl T).length := by
    unfold rank1
    rw [List.take_length]
  rw [h1, bl_length, rank1_eq_countP_range _ _ (by rw [bl_length]),
    ← wtH_len_runs, wtH_length_countP]
  apply List.countP_congr
  intro p hp
  rw [bl_getD T p (List.mem_range.mp hp)]

/-- The ones of `m_bf` count the runs plus the sentinel. -/
lemma bf_ones_count (T : List Nat) :
    (bf T).countP (fun x => x) = numRuns T + 1 := by
  have h1 : (bf T).countP (fun x => x) = rank1 (bf T) (T.length + 1) := by
    unfold rank1
    rw [← bf_length, List.take_length]
  have hsent : (bf T).getD T.length false = true :=
    (bf_getD_iff T T.length (Nat.le_refl _)).mpr (Or.inl rfl)
  have h2 : rank1 (bf T) (T.length + 1) = rank1 (bf T) T.length + 1 := by
    rw [rank1_eq_countP_range _ _ (by rw [bf_length]),
      rank1_eq_countP_range _ _ (by rw [bf_length]; omega),
      List.range_succ, List.countP_append]
    have hone : List.countP (fun p => (bf T).getD p false) [T.length] = 1 := by
      rw [List.countP_cons, List.countP_nil, hsent]
      rfl
    rw [hone]
  have h3 : rank1 (bf T) T.length = numRuns T := by
    rw [rank1_bf_heads T T.length (Nat.le_refl _)]
    have hall : (headPos T).filter (fun g => decide (posval T g < T.length))
        = headPos T := by
      apply List.filter_eq_self.mpr
      intro g hg
      exact decide_eq_true (posval_lt_length T g ((mem_headPos T g).mp hg).1)
    rw [hall, ← wtH_length, wtH_len_runs]
  rw [h1, h2, h3]

end wt_rlmn

/-! ## Lemmas about `hac_vector` -/

namespace hac_vector

/-- Looking an index up in the exception map built by the container
constructor finds its value, whenever the value exceeds the threshold. -/
lemma m_map_lookup (w : Nat) (l : List Nat) (i : Nat) (hi : i < l.length)
    (hbig : ¬ l.getD i 0 ≤ treshold w) :
    (m_map w l).lookup i = some (l.getD i 0) := by
  unfold m_map
  have key : ∀ ks : List Nat, i ∈ ks →
      (ks.filterMap (fun j => if l.getD j 0 ≤ treshold w then none
        else some (j, l.getD j 0))).lookup i = some (l.getD i 0) := by
    intro ks
    induction ks with
    | nil =>
      intro hmem
      exact absurd hmem (List.not_mem_nil i)
    | cons k ks ih =>
      intro hmem
      rw [List.filterMap_cons]
      by_cases hQ : l.getD k 0 ≤ treshold w
      · rw [if_pos hQ]
        apply ih
        rcases List.mem_cons.mp hmem with rfl | hmem2
        · exact absurd hQ hbig
        · exact hmem2
      · rw [if_neg hQ]
        by_cases hik : i = k
        · subst hik
          simp [List.lookup]
        · have hlk : ((k, l.getD k 0) ::
              (ks.filterMap (fun j => if l.getD j 0 ≤ treshold w then none
                else some (j, l.getD j 0)))).lookup i
              = (ks.filterMap (fun j => if l.getD j 0 ≤ treshold w then none
                else some (j, l.getD j 0))).lookup i := by
            simp [List.lookup, beq_false_of_ne hik]
          rw [hlk]
          apply ih
          rcases List.mem_cons.mp hmem with rfl | hmem2
          · exact absurd rfl hik
          · exact hmem2
  exact key (List.range l.length) (List.mem_range.mpr hi)

/-- The primary slot of a constructor-built vector exceeds the threshold
only when the original value did. -/
lemma m_data_getD (w : Nat) (l : List Nat) (i : Nat) (hi : i < l.length) :
    (m_data w l).getD i 0
      = (if l.getD i 0 ≤ treshold w then l.getD i 0 % 2 ^ w else ott w) := by
  unfold m_data
  exact wt_rlmn.map_getD_lt l _ i 0 hi

end hac_vector

/-! ## The claims -/

/-- Claim C1: for every byte sequence `T` of length `n` used to build the
RLWT, every `i` in `[0, n]` and every byte `c`, `rank(i, c)` returns the
number of positions `j < i` with `T[j] = c`. -/
theorem wt_rlmn_rank_counts_occurrences (T : List Nat)
    (_hT : ∀ x ∈ T, x < 256) (i c : Nat) (hi : i ≤ T.length)
    (_hc : c < 256) :
    wt_rlmn.rank T i c = occBefore T i c :=
  wt_rlmn.rank_eq_occBefore T i c hi

theorem wt_rlmn_rank_counts_occurrences_witness :
    wt_rlmn.rank [97, 97, 98, 97] 3 97 = occBefore [97, 97, 98, 97] 3 97 :=
  wt_rlmn_rank_counts_occurrences [97, 97, 98, 97] (by decide) 3 97
    (by decide) (by decide)

/-- Claim C2: for every byte sequence `T` of length `n` and every `i` in
`[0, n)`, `access(i)` returns `T[i]`, and it equals
`WT_H.access(rank1(BL, i+1) - 1)`. -/
theorem wt_rlmn_access_recovers_input (T : List Nat)
    (_hT : ∀ x ∈ T, x < 256) (i : Nat) (hi : i < T.length) :
    wt_rlmn.access T i = T.getD i 0 ∧
      wt_rlmn.access T i
        = wt_access (wt_rlmn.wtH T) (rank1 (wt_rlmn.bl T) (i + 1) - 1) :=
  ⟨wt_rlmn.access_eq_getD T i hi, rfl⟩

theorem wt_rlmn_access_recovers_input_witness :
    wt_rlmn.access [97, 97, 98, 97] 2 = [97, 97, 98, 97].getD 2 0 :=
  (wt_rlmn_access_recovers_input [97, 97, 98, 97] (by decide) 2 (by decide)).1

/-- Claim C3: for every byte sequence `T`, every byte `c` occurring `k >= 1`
times in `T`, and every `j` in `[1, k]`, `select(j, c)` returns the position
of the `j`-th occurrence of `c`: `T[select(j, c)] = c` and
`rank(select(j, c), c) = j - 1`. -/
theorem wt_rlmn_select_finds_jth_occurrence (T : List Nat)
    (_hT : ∀ x ∈ T, x < 256) (j c : Nat) (_hc : c < 256) (hj1 : 1 ≤ j)
    (hj2 : j ≤ T.count c) :
    wt_rlmn.select T j c < T.length ∧
      T.getD (wt_rlmn.select T j c) 0 = c ∧
      wt_rlmn.rank T (wt_rlmn.select T j c) c = j - 1 := by
  obtain ⟨h1, h2, h3⟩ := wt_rlmn.select_eq_pos T j c hj1 hj2
  exact ⟨h1, h2, by
    rw [wt_rlmn.rank_eq_occBefore T _ c (by omega)]
    exact h3⟩

theorem wt_rlmn_select_finds_jth_occurrence_witness :
    wt_rlmn.select [97, 97, 98, 97] 2 97 < 4 ∧
      [97, 97, 98, 97].getD (wt_rlmn.select [97, 97, 98, 97] 2 97) 0 = 97 ∧
      wt_rlmn.rank [97, 97, 98, 97] (wt_rlmn.select [97, 97, 98, 97] 2 97) 97
        = 1 :=
  wt_rlmn_select_finds_jth_occurrence [97, 97, 98, 97] (by decide) 2 97
    (by decide) (by decide) (by decide)

/-- Claim C4: for every byte sequence `T` of length `n` and every `i` in
`[0, n)`, `inverse_select(i)` returns the pair `(rank(i, T[i]), T[i])`,
agreeing with the fused combination of `access(i)` and
`rank(i, access(i))`. -/
theorem wt_rlmn_inverse_select_fused (T : List Nat)
    (_hT : ∀ x ∈ T, x < 256) (i : Nat) (hi : i < T.length) :
    wt_rlmn.inverse_select T i
      = (wt_rlmn.rank T i (wt_rlmn.access T i), wt_rlmn.access T i) := by
  rw [wt_rlmn.inverse_select_eq T i hi, wt_rlmn.access_eq_getD T i hi,
    wt_rlmn.rank_eq_occBefore T i _ (by omega)]

theorem wt_rlmn_inverse_select_fused_witness :
    wt_rlmn.inverse_select [97, 97, 98, 97] 3
      = (wt_rlmn.rank [97, 97, 98, 97] 3 (wt_rlmn.access [97, 97, 98, 97] 3),
        wt_rlmn.access [97, 97, 98, 97] 3) :=
  wt_rlmn_inverse_select_fused [97, 97, 98, 97] (by decide) 3 (by decide)

set_option maxRecDepth 40000 in
/-- Counterexample to claim C5: on `T = "abracadabra"` the code returns
`inverse_select(7) = (3, 'a')`, not `(2, 'a')` as the claim states — the
occurrences of `'a'` before position 7 sit at positions 0, 3 and 5. -/
theorem wt_rlmn_abracadabra_inverse_select_cex :
    wt_rlmn.inverse_select abracadabraBytes 7 ≠ (2, 97) := by
  decide

set_option maxRecDepth 200000 in
/-- Claim C5, amended: for `T = "abracadabra"` the RLWT answers
`access(0) = 'a'`, `access(3) = 'a'`, `rank(11, 'a') = 5`,
`rank(11, 'b') = 2`, `select(5, 'a') = 10`, `select(2, 'r') = 9`, and
`inverse_select(7) = (3, 'a')` (the claim stated `(2, 'a')`). -/
theorem wt_rlmn_abracadabra_checks :
    wt_rlmn.access abracadabraBytes 0 = 97 ∧
      wt_rlmn.access abracadabraBytes 3 = 97 ∧
      wt_rlmn.rank abracadabraBytes 11 97 = 5 ∧
      wt_rlmn.rank abracadabraBytes 11 98 = 2 ∧
      wt_rlmn.select abracadabraBytes 5 97 = 10 ∧
      wt_rlmn.select abracadabraBytes 2 114 = 9 ∧
      wt_rlmn.inverse_select abracadabraBytes 7 = (3, 97) := by
  decide

/-- Claim C6: a `select(j, c)` query fails with OutOfRange exactly when
`j = 0` or `j > rank(n, c)`, and a `rank(i, c)` query fails with OutOfRange
exactly when `i > n` (the `assert` preconditions of the source made
explicit failures). -/
theorem wt_rlmn_queries_fail_out_of_range :
    ∀ (T : List Nat) (j c i : Nat),
      (wt_rlmn.selectE T j c = Except.error QueryError.outOfRange
        ↔ (j = 0 ∨ wt_rlmn.rank T T.length c < j)) ∧
      (wt_rlmn.rankE T i c = Except.error QueryError.outOfRange
        ↔ T.length < i) := by
  intro T j c i
  constructor
  · unfold wt_rlmn.selectE
    by_cases h : 0 < j ∧ j ≤ wt_rlmn.rank T T.length c
    · rw [if_pos h]
      simp
      omega
    · rw [if_neg h]
      simp
      omega
  · unfold wt_rlmn.rankE
    by_cases h : i ≤ T.length
    · rw [if_pos h]
      simp
      omega
    · rw [if_neg h]
      simp
      omega

/-- Counterexample to claim C7: on the Empty RLWT (default-constructed,
equal in behavior to a tree built from the empty sequence) the query
`rank(0, c)` succeeds and returns 0 — it does not fail, and no query fails
with a distinct Uninitialized error (the code only has the OutOfRange
`assert`s). -/
theorem wt_rlmn_empty_rank_zero_ok_cex :
    wt_rlmn.size [] = 0 ∧ wt_rlmn.empty [] = true ∧
      wt_rlmn.rankE [] 0 0 = Except.ok 0 := by
  constructor
  · rfl
  constructor
  · rfl
  · rfl

/-- Claim C7, amended: the Empty RLWT (default-constructed) behaves exactly
like a tree built from the empty sequence: `size() = 0`, `empty() = true`;
`access`, `inverse_select` and `select` fail with OutOfRange for every
argument, and `rank(i, c)` fails with OutOfRange exactly when `i > 0`
(there is no separate Uninitialized failure; `rank(0, c) = 0` succeeds).
In particular any `access` on the tree built from `T = ""` fails with
OutOfRange. -/
theorem wt_rlmn_empty_queries_out_of_range :
    wt_rlmn.size [] = 0 ∧ wt_rlmn.empty [] = true ∧
      (∀ i, wt_rlmn.accessE [] i = Except.error QueryError.outOfRange) ∧
      (∀ i, wt_rlmn.inverse_selectE [] i
        = Except.error QueryError.outOfRange) ∧
      (∀ j c, wt_rlmn.selectE [] j c = Except.error QueryError.outOfRange) ∧
      (∀ i c, wt_rlmn.rankE [] i c = Except.error QueryError.outOfRange
        ↔ 0 < i) ∧
      (∀ c, wt_rlmn.rankE [] 0 c = Except.ok 0) := by
  refine ⟨rfl, rfl, ?_, ?_, ?_, ?_, ?_⟩
  · intro i
    unfold wt_rlmn.accessE
    rw [if_neg (by simp)]
  · intro i
    unfold wt_rlmn.inverse_selectE
    rw [if_neg (by simp)]
  · intro j c
    unfold wt_rlmn.selectE
    rw [if_neg]
    rintro ⟨h1, h2⟩
    unfold wt_rlmn.rank at h2
    simp at h2
    omega
  · intro i c
    unfold wt_rlmn.rankE
    by_cases h : i ≤ ([] : List Nat).length
    · rw [if_pos h]
      simp at h
      subst h
      simp
    · rw [if_neg h]
      simp at h ⊢
      omega
  · intro c
    rfl

/-- Claim C8: after construction from any byte sequence `T` of length `n`
with `r` maximal equal-byte runs, `BL` has length `n` with exactly `r`
ones, `BF` has length `n + 1` with exactly `r + 1` ones, and `BF[n] = 1`. -/
theorem wt_rlmn_bitvector_invariants (T : List Nat)
    (_hT : ∀ x ∈ T, x < 256) :
    (wt_rlmn.bl T).length = T.length ∧
      (wt_rlmn.bf T).length = T.length + 1 ∧
      (wt_rlmn.bl T).countP (fun x => x) = numRuns T ∧
      (wt_rlmn.bf T).countP (fun x => x) = numRuns T + 1 ∧
      (wt_rlmn.bf T).getD T.length false = true :=
  ⟨wt_rlmn.bl_length T, wt_rlmn.bf_length T, wt_rlmn.bl_ones_count T,
    wt_rlmn.bf_ones_count T,
    (wt_rlmn.bf_getD_iff T T.length (Nat.le_refl _)).mpr (Or.inl rfl)⟩

theorem wt_rlmn_bitvector_invariants_witness :
    (wt_rlmn.bl [97, 97, 98, 97]).countP (fun x => x)
        = numRuns [97, 97, 98, 97] ∧
      (wt_rlmn.bf [97, 97, 98, 97]).countP (fun x => x)
        = numRuns [97, 97, 98, 97] + 1 :=
  ⟨(wt_rlmn_bitvector_invariants [97, 97, 98, 97] (by decide)).2.2.1,
    (wt_rlmn_bitvector_invariants [97, 97, 98, 97] (by decide)).2.2.2.1⟩

/-- Claim C9 fails on the code: `operator[]` funnels the 64-bit exception
value through a local 32-bit `int val`, so building `hac_vector<8>` from
the single value `2^31 = 2147483648` and reading index 0 returns
`2^64 - 2^31 = 18446744071562067968` instead of the original value. -/
theorem hac_vector_get_truncates_failing_input :
    hac_vector.get 8 [2147483648] 0 = 18446744071562067968 ∧
      (18446744071562067968 : Nat) ≠ 2147483648 := by
  constructor
  · decide
  · decide

/-- Claim C10: for every `hac_vector` built by the container constructor,
every index whose primary slot holds a value greater than the threshold has
a key in the exception map (hence the return-0-when-absent fallback of
`operator[]` is unreachable on constructor-built vectors). -/
theorem hac_vector_exception_map_covers_sentinel (w : Nat) (l : List Nat)
    (i : Nat) (hi : i < l.length)
    (hbig : hac_vector.treshold w < (hac_vector.m_data w l).getD i 0) :
    (hac_vector.m_map w l).lookup i = some (l.getD i 0) := by
  apply hac_vector.m_map_lookup w l i hi
  intro hsmall
  rw [hac_vector.m_data_getD w l i hi, if_pos hsmall] at hbig
  have := Nat.mod_le (l.getD i 0) (2 ^ w)
  omega

theorem hac_vector_exception_map_covers_sentinel_witness :
    (hac_vector.m_map 8 [300]).lookup 0 = some 300 :=
  hac_vector_exception_map_covers_sentinel 8 [300] 0 (by decide) (by decide)

end sdsl
